import Mathlib

/- Verification of the product-catalog matching engine of `compare.py`
(repository mrmaxi/test_allzora).

Modelling conventions (shallow embedding of the Python source):

* Python strings are modelled as `List Char` (abbreviated `Str`).  `str.lower`,
  `str.strip`, `str.replace(old, '')` and `str.isdigit` are modelled
  character-exactly for the ASCII range.
* Python floats are modelled as exact rationals: every number reaching
  `create_item` is produced by `parse_size` from a decimal literal, which is
  exact in `ℚ`; `round(x)`, `round(x, 3)` and the fixed-point f-string formats
  round half to even, as Python does.
* Python dicts are modelled as association lists in insertion order with
  first-match lookup; inserting an existing key overwrites its value in place,
  a new key is appended at the end (CPython's documented ordering).
* The mutable shared group lists (`item['bind']`) are modelled by an arena:
  `groups : List (List Item)` holds every group ever created (its index is the
  group's identity), and the `'bind'` field of an item dict is the entry of
  `binds` at the item's `(source_name, ean_code)` key.  Within one run a
  `(source, code)` pair identifies a unique item dict, so this is faithful.
* `fuzzywuzzy`'s `process.extractOne(q, choices, scorer=fuzz.token_set_ratio)`
  is modelled by `extractOne` applied to an abstract score function
  `score : Str → Str → Nat` (the composition of the processor and scorer):
  it returns the first choice attaining the maximal score, or `none` for an
  empty choice sequence, exactly as `extractOne` behaves with the default
  `score_cutoff=0`.
-/

abbrev Str := List Char

/- `str.lower` restricted to ASCII (all brand and name stop words that the
program manipulates are ASCII). -/
def pyLowerChar (c : Char) : Char :=
  if 65 ≤ c.toNat ∧ c.toNat ≤ 90 then Char.ofNat (c.toNat + 32) else c

def pyLower (s : Str) : Str := s.map pyLowerChar

/- The whitespace characters removed by `str.strip()`. -/
def isPySpace (c : Char) : Bool :=
  c = ' ' || c = '\t' || c = '\n' || c = '\r' || c = '\x0b' || c = '\x0c'

/- `str.strip()`: drop whitespace from both ends. -/
def pyStrip (s : Str) : Str :=
  ((s.dropWhile isPySpace).reverse.dropWhile isPySpace).reverse

/- `s.replace(pat, '')` for a nonempty `pat`: scan left to right, removing
non-overlapping occurrences.  The fuel argument (instantiated with `s.length`,
an upper bound on the number of steps since every step consumes at least one
character) makes the recursion structural. -/
def removeOccAux (pat : Str) : Str → ℕ → Str
  | s, 0 => s
  | [], _ => []
  | c :: rest, fuel + 1 =>
    if pat ≠ [] ∧ pat.isPrefixOf (c :: rest) = true then
      removeOccAux pat ((c :: rest).drop pat.length) fuel
    else
      c :: removeOccAux pat rest fuel

/- `s.replace(pat, '')`; for `pat = ''` Python returns `s` unchanged (replacing
the empty string by the empty string inserts nothing). -/
def removeOcc (s pat : Str) : Str :=
  match pat with
  | [] => s
  | _ :: _ => removeOccAux pat s s.length

/- `str.isdigit` restricted to ASCII digits (`''.isdigit()` is `False`). -/
def pyIsDigit (s : Str) : Bool :=
  !(s.isEmpty) && s.all (fun c => '0' ≤ c && c ≤ '9')

/- `s.split(' ', 1)[0]`. -/
def firstToken (s : Str) : Str := s.takeWhile (fun c => c ≠ ' ')

/- `s.split(' ', 1)[1]`, defined when `s` contains a space. -/
def afterFirstSpace (s : Str) : Str := (s.dropWhile (fun c => c ≠ ' ')).drop 1

/- `s.replace(',', '.')`. -/
def commaToDot (s : Str) : Str := s.map (fun c => if c = ',' then '.' else c)

/- `s.replace('.', '')`. -/
def stripDots (s : Str) : Str := s.filter (fun c => c ≠ '.')

def natToStr (n : ℕ) : Str := Nat.toDigits 10 n

/- The numeric value of a digit string (most significant digit first). -/
def parseDigits (t : Str) : ℕ := t.foldl (fun n c => n * 10 + (c.toNat - 48)) 0

def intToStr (z : ℤ) : Str :=
  if z < 0 then '-' :: natToStr (-z).toNat else natToStr z.toNat

/- Python `float(s)` on the strings that can reach it inside
`parse_size_amount` (characters are digits and dots only, with at least one
digit, by the `isdigit` guard): the literal is valid iff it has at most one
dot.  Returns the exact rational value, `none` modelling a `ValueError`. -/
def pyFloat (s : Str) : Option ℚ :=
  if (s.all fun c => c = '.' || ('0' ≤ c && c ≤ '9')) &&
     ((s.filter fun c => c = '.').length ≤ 1) &&
     (1 ≤ (s.filter fun c => c ≠ '.').length) then
    let ip := s.takeWhile (fun c => c ≠ '.')
    let fp := (s.dropWhile (fun c => c ≠ '.')).drop 1
    some (mkRat (parseDigits ip * 10 ^ fp.length + parseDigits fp) (10 ^ fp.length))
  else none

/- `parse_size_amount` (compare.py lines 15-28).  `Except.error ()` models the
uncaught `ValueError` that `float(s)` raises when the token passes the
`isdigit` guard (which removes every dot before testing) but holds more than
one dot.  `Except.ok none` models the implicit `return None`. -/
def parse_size_amount (s : Str) : Except Unit (Option ℚ) :=
  if s = [] then .ok none
  else
    let t := commaToDot (firstToken s)
    if pyIsDigit (stripDots t) then
      match pyFloat t with
      | some q => .ok (some q)
      | none => .error ()
    else .ok none

/- `parse_size_unit` (compare.py lines 31-38): `None` unless the string is
nonempty and contains a space. -/
def parse_size_unit (s : Str) : Option Str :=
  if s ≠ [] ∧ ' ' ∈ s then some (pyStrip (afterFirstSpace s)) else none

/- The record built by `parse_size`: the optional `Weight` and
`Weight_UnitOfMeasurement` entries. -/
structure SizeRec where
  Weight : Option ℚ
  Weight_UnitOfMeasurement : Option Str
deriving DecidableEq, Repr

/- `parse_size` (compare.py lines 41-55).  `if amount:` is falsy both for
`None` and for `0.0`, and `if unit:` is falsy for the empty string. -/
def parse_size (s : Str) : Except Unit SizeRec :=
  match parse_size_amount s with
  | .error e => .error e
  | .ok amount =>
    let w : Option ℚ :=
      match amount with
      | some q => if q ≠ 0 then some q else none
      | none => none
    let u : Option Str :=
      match parse_size_unit s with
      | some us => if us ≠ [] then some us else none
      | none => none
    .ok ⟨w, u⟩

/- Round half to even, as Python's `round` and fixed-point formatting do. -/
def rhe (q : ℚ) : ℤ :=
  let f := ⌊q⌋
  let r := q - (f : ℚ)
  if r < 1 / 2 then f
  else if 1 / 2 < r then f + 1
  else if f % 2 = 0 then f else f + 1

/- Python `int(x)`: truncation toward zero. -/
def pyInt (q : ℚ) : ℤ := q.num / (q.den : ℤ)

def padZeros (k : ℕ) (s : Str) : Str := List.replicate (k - s.length) '0' ++ s

/- The f-string fixed format `f'{q:0.{u}f}'` for a nonnegative rational
(weights come from `parse_size`, hence are nonnegative). -/
def fmtFixed (q : ℚ) (u : ℕ) : Str :=
  let n := (rhe (q * (10 : ℚ) ^ u)).toNat
  if u = 0 then natToStr n
  else natToStr (n / 10 ^ u) ++ '.' :: padZeros u (natToStr (n % 10 ^ u))

/- `str(x)` for a non-integral float modelled as an exact decimal rational:
the shortest decimal expansion (searched up to 17 fractional digits, enough
for every value `parse_size` produces). -/
def qRepr (q : ℚ) : Str :=
  let k := (((List.range 18).find? fun k => (q * (10 : ℚ) ^ k).den = 1)).getD 17
  let m := (q * (10 : ℚ) ^ k).num.toNat
  if k = 0 then natToStr m ++ ['.', '0']
  else natToStr (m / 10 ^ k) ++ '.' :: padZeros k (natToStr (m % 10 ^ k))

/- A canonical source record as consumed by `create_item`: the fields the
function reads.  `Weight = none` models both an absent `Weight` entry and a
non-numeric one (the `isinstance(weight, (int, float))` guard); `Brand = none`
models an absent or `None` brand (`rec.get('Brand') or ''`).  The opaque
original payload (`raw`) is not modelled: no matching decision reads it. -/
structure Rec where
  id : Str
  name : Str
  Brand : Option Str
  Weight : Option ℚ
  Weight_UnitOfMeasurement : Option Str
  EANs : List Str
deriving DecidableEq, Repr

/- The normalized item dict built by `create_item` (minus `raw`). -/
structure Item where
  source_name : Str
  id : Str
  ean_code : Option Str
  brand : Str
  name : Str
  wm : Str
  aliasStr : Str
  EANs : List Str
deriving DecidableEq, Repr

def stop_words : List Str :=
  ["professional".toList, "cosmetics".toList, "professionnel".toList]

def otherStr : Str := "other".toList

/- The four weight renderings removed from the name:
`f'{weight:0.{3-i}f} {measure}'.strip()` for `i = 0, 1, 2, 3`. -/
def wm_patterns (w : ℚ) (measure : Str) : List Str :=
  (List.range 4).map fun i => pyStrip (fmtFixed w (3 - i) ++ ' ' :: measure)

/- The final `wm` string: `weight` is replaced by `int(weight)` when
`round(weight) == round(weight, 3)`, then `f'{weight} {measure}'.strip()`. -/
def wm_final (w : ℚ) (measure : Str) : Str :=
  if ((rhe w : ℤ) : ℚ) = ((rhe (w * 1000) : ℤ) : ℚ) / 1000 then
    pyStrip (intToStr (pyInt w) ++ ' ' :: measure)
  else
    pyStrip (qRepr w ++ ' ' :: measure)

/- `create_item` (compare.py lines 58-101).  The `for i in range(4)` loop is
the left fold of `removeOcc` over `wm_patterns`; the loop runs only when
`weight` is present, numeric and nonzero (`if weight and isinstance(...)`). -/
def create_item (sour : Str) (rec : Rec) : Item :=
  let name0 := pyLower rec.name
  let measure := rec.Weight_UnitOfMeasurement.getD []
  let name1 :=
    match rec.Weight with
    | some w => if w ≠ 0 then (wm_patterns w measure).foldl removeOcc name0 else name0
    | none => name0
  let wm1 : Str :=
    match rec.Weight with
    | some w => if w ≠ 0 then wm_final w measure else []
    | none => []
  let brandRaw := pyLower (rec.Brand.getD [])
  let name2 := removeOcc name1 brandRaw
  let brand1 := stop_words.foldl removeOcc brandRaw
  let name3 := removeOcc name2 brand1
  let brand2 := if brand1.length ≤ 3 then otherStr else brand1
  { source_name := sour
    id := rec.id
    ean_code := none
    brand := pyStrip brand2
    name := rec.name
    wm := wm1
    aliasStr := pyStrip name3
    EANs := rec.EANs }

/- The brand pipeline of `create_item` in isolation: lowercase, remove the
stop words in order, substitute `'other'` when the (unstripped) result has
length at most 3, and strip at dict construction. -/
def brandClean (b : Option Str) : Str :=
  let brandRaw := pyLower (b.getD [])
  let brand1 := stop_words.foldl removeOcc brandRaw
  pyStrip (if brand1.length ≤ 3 then otherStr else brand1)

/- Association lists standing for Python dicts: first-match lookup. -/
def dlookup {κ β : Type} [DecidableEq κ] : List (κ × β) → κ → Option β
  | [], _ => none
  | e :: l, k => if k = e.1 then some e.2 else dlookup l k

/- Python dict assignment `d[k] = v`: overwrite in place, or append a fresh
key at the end. -/
def dictInsert {κ β : Type} [DecidableEq κ] : List (κ × β) → κ → β → List (κ × β)
  | [], k, v => [(k, v)]
  | e :: l, k, v => if k = e.1 then (e.1, v) :: l else e :: dictInsert l k v

/- `prepare_parsed_list` (compare.py lines 104-109): the dict comprehension
`{ean: {**item, 'ean_code': ean} for item in new_items for ean in item['EANs']}`. -/
def prepare_parsed_list (sour : Str) (recs : List Rec) : List (Str × Item) :=
  let new_items := recs.map (create_item sour)
  new_items.foldl
    (fun acc item =>
      item.EANs.foldl (fun acc2 e => dictInsert acc2 e { item with ean_code := some e }) acc)
    []

/- ------------------------------------------------------------------ -/
/- The exact (EAN) matcher, compare.py lines 149-192.                 -/
/- ------------------------------------------------------------------ -/

/- The key identifying one item dict during a run: its owning source and the
code it is keyed by.  Every dict reaching the matchers comes from
`prepare_parsed_list`, so the pair is unique per dict. -/
abbrev ItemKey := Str × Option Str

def itemKey (it : Item) : ItemKey := (it.source_name, it.ean_code)

/- `sources`: source name -> that source's code-indexed item dict. -/
abbrev Sources := List (Str × List (Str × Item))

/- The run-wide mutable state: the arena of group lists (`bind` lists), the
per-item `'bind'` field, and the two dicts of `combine_by_ean`. -/
structure CState where
  groups : List (List Item)
  binds : List (ItemKey × ℕ)
  ean_sources : Sources
  res_eans : List (Str × ℕ)
deriving Repr

def CState.init : CState := ⟨[], [], [], []⟩

/- Group dereference: the member list of group `g` (out-of-range indices give
`[]`; they never occur along a run). -/
def gget (gs : List (List Item)) (g : ℕ) : List Item := gs.getD g []

/- The body of the `for ean, new_item in new_items.items()` loop of
`append_by_ean`: either append to the group already recorded for the code, or
scan the previously combined sources and found a first holder, creating a
fresh two-member group. -/
def eanStep (st : CState) (p : Str × Item) : CState :=
  match dlookup st.res_eans p.1 with
  | some g =>
    { st with
      groups := st.groups.set g (gget st.groups g ++ [p.2])
      binds := dictInsert st.binds (itemKey p.2) g }
  | none =>
    match st.ean_sources.findSome? (fun q => dlookup q.2 p.1) with
    | some it0 =>
      let g := st.groups.length
      { st with
        groups := st.groups ++ [[it0, p.2]]
        binds := dictInsert (dictInsert st.binds (itemKey it0) g) (itemKey p.2) g
        res_eans := st.res_eans ++ [(p.1, g)] }
    | none => st

/- `append_by_ean` (compare.py lines 149-180): process each item of the new
source, then register the source as combined. -/
def append_by_ean (sour : Str) (new_items : List (Str × Item)) (st : CState) : CState :=
  let st1 := new_items.foldl eanStep st
  { st1 with ean_sources := st1.ean_sources ++ [(sour, new_items)] }

/- `combine_by_ean` (compare.py lines 183-192). -/
def combine_by_ean (S : Sources) : CState :=
  S.foldl (fun st p => append_by_ean p.1 p.2 st) CState.init

/- ------------------------------------------------------------------ -/
/- The brand clusterer, compare.py lines 196-267.                     -/
/- ------------------------------------------------------------------ -/

/- `tBrand = namedtuple('tBrand', ('name', 'source', 'items'))`. -/
structure TBrand where
  name : Str
  source : Str
  items : List Item
deriving DecidableEq, Repr

/- `brands.setdefault(brand, []).append(item)`: append to the existing entry
in place, or add a fresh singleton entry at the end. -/
def dictAppendVal : List (Str × List Item) → Str → Item → List (Str × List Item)
  | [], b, it => [(b, [it])]
  | e :: l, b, it =>
    if b = e.1 then (e.1, e.2 ++ [it]) :: l else e :: dictAppendVal l b it

/- `group_items_by_brands` (compare.py lines 196-202): bucket one source's
items (in dict-value order) by cleaned brand. -/
def group_items_by_brands (items : List (Str × Item)) : List (Str × List Item) :=
  items.foldl (fun brands q => dictAppendVal brands q.2.brand q.2) []

/- `create_brand_sources` (compare.py lines 205-212). -/
def create_brand_sources (S : Sources) : List (Str × List (Str × List Item)) :=
  S.map fun p => (p.1, group_items_by_brands p.2)

/- `process.extractOne(q, choices, scorer)` with the default `score_cutoff=0`:
`none` on an empty choice sequence, else the first choice attaining the
maximal score, paired with its score (`max` keeps the earliest maximum). -/
def extractOne (f : Str → ℕ) : List Str → Option (Str × ℕ)
  | [] => none
  | c :: cs =>
    some (cs.foldl (fun b x => if f x > b.2 then (x, f x) else b) (c, f c))

/- The mutable clustering state of `match_brands`: the arena of shared
cluster lists and the dict `res_brands : brand name -> cluster`.  Two brand
names mapped to the same arena index share one list object, exactly as two
dict keys holding the same Python list. -/
structure BState where
  clusters : List (List TBrand)
  res_brands : List (Str × ℕ)
deriving Repr

def bget (cs : List (List TBrand)) (g : ℕ) : List TBrand := cs.getD g []

/- The body of the inner loop of `match_brands` (compare.py lines 224-243)
for one `(new_brand, new_items)` bucket of source `sour`.  The two `none`
fallbacks after a successful fuzzy lookup cannot occur (`extractOne` returns
an existing key); they mirror the structure totally. -/
def brandStep (score : Str → Str → ℕ) (thresh : ℕ) (sour : Str)
    (st : BState) (p : Str × List Item) : BState :=
  let bobj : TBrand := ⟨p.1, sour, p.2⟩
  match dlookup st.res_brands p.1 with
  | some g => { st with clusters := st.clusters.set g (bget st.clusters g ++ [bobj]) }
  | none =>
    if st.res_brands = [] then
      { clusters := st.clusters ++ [[bobj]]
        res_brands := st.res_brands ++ [(p.1, st.clusters.length)] }
    else
      match extractOne (fun b => score p.1 b) (st.res_brands.map Prod.fst) with
      | some (msb, sc) =>
        if thresh ≤ sc then
          match dlookup st.res_brands msb with
          | some g =>
            { clusters := st.clusters.set g (bget st.clusters g ++ [bobj])
              res_brands := st.res_brands ++ [(p.1, g)] }
          | none =>
            { clusters := st.clusters ++ [[bobj]]
              res_brands := st.res_brands ++ [(p.1, st.clusters.length)] }
        else
          { clusters := st.clusters ++ [[bobj]]
            res_brands := st.res_brands ++ [(p.1, st.clusters.length)] }
      | none =>
        { clusters := st.clusters ++ [[bobj]]
          res_brands := st.res_brands ++ [(p.1, st.clusters.length)] }

/- `match_brands` (compare.py lines 217-245). -/
def match_brands (score : Str → Str → ℕ) (brand_sources : List (Str × List (Str × List Item)))
    (thresh : ℕ) : BState :=
  brand_sources.foldl
    (fun st p => p.2.foldl (fun st2 q => brandStep score thresh p.1 st2 q) st)
    ⟨[], []⟩

/- `group_items_by_similar_brands` (compare.py lines 248-267): map every brand
spelling to the flattened item list of its cluster. -/
def group_items_by_similar_brands (score : Str → Str → ℕ) (S : Sources)
    (brandThresh : ℕ) : List (Str × List Item) :=
  let mb := match_brands score (create_brand_sources S) brandThresh
  mb.res_brands.map fun p => (p.1, ((bget mb.clusters p.2).map TBrand.items).flatten)

/- ------------------------------------------------------------------ -/
/- The alias matcher, compare.py lines 270-345.                       -/
/- ------------------------------------------------------------------ -/

/- `not_bound_yet` (compare.py lines 284-290): an item of the processed
source is excluded; a bound item is excluded when its group already holds a
member of the processed source. -/
def not_bound_yet (st : CState) (sour : Str) (it : Item) : Bool :=
  if it.source_name = sour then false
  else
    match dlookup st.binds (itemKey it) with
    | some g => !((gget st.groups g).any fun m => decide (m.source_name = sour))
    | none => true

/- `filter(check_item, brand_items)` (compare.py lines 304-308): the
candidate pool for a new item — same weight key, not excluded. -/
def eligible (st : CState) (rbi : List (Str × List Item)) (sour : Str) (ni : Item) :
    List Item :=
  ((dlookup rbi ni.brand).getD []).filter fun it =>
    decide (it.wm = ni.wm) && not_bound_yet st sour it

/- The body of the `for new_item in new_items.values()` loop of
`append_by_alias` (compare.py lines 295-326).  The `find?` fallback `acc`
mirrors the `assert` (unreachable: the winning alias is drawn from the
candidate pool).  `bind = item.setdefault('bind', [item])` either reuses the
candidate's existing group or creates a fresh singleton holding the
candidate, recording the `'bind'` key on the candidate in the latter case;
the appended `new_item` itself never receives a `'bind'` key here (only
`append_by_ean` sets `new_item['bind']`). -/
def aliasStep (score : Str → Str → ℕ) (thresh : ℕ) (rbi : List (Str × List Item))
    (sour : Str) (acc : CState × List ℕ) (ni : Item) : CState × List ℕ :=
  let st := acc.1
  match dlookup st.binds (itemKey ni) with
  | some _ => acc
  | none =>
    let cands := eligible st rbi sour ni
    match extractOne (fun a => score ni.aliasStr a) (cands.map Item.aliasStr) with
    | none => acc
    | some (msa, sc) =>
      if thresh ≤ sc then
        match cands.find? (fun it => decide (it.aliasStr = msa)) with
        | some item =>
          match dlookup st.binds (itemKey item) with
          | some g =>
            ({ st with
               groups := st.groups.set g (gget st.groups g ++ [ni]) },
             if g ∈ acc.2 then acc.2 else acc.2 ++ [g])
          | none =>
            let g := st.groups.length
            ({ st with
               groups := st.groups ++ [[item, ni]]
               binds := dictInsert st.binds (itemKey item) g },
             if g ∈ acc.2 then acc.2 else acc.2 ++ [g])
        | none => acc
      else acc

/- `append_by_alias` (compare.py lines 270-326). -/
def append_by_alias (score : Str → Str → ℕ) (thresh : ℕ) (rbi : List (Str × List Item))
    (sour : Str) (new_items : List (Str × Item)) (acc : CState × List ℕ) :
    CState × List ℕ :=
  new_items.foldl (fun a q => aliasStep score thresh rbi sour a q.2) acc

/- `combine_items_by_alias` (compare.py lines 329-345): the accumulating
result list `res_arr` holds group identities (Python's `bind not in res_arr`
compares the group lists by value with an identity fast path; in a
well-formed run two distinct arena groups always differ as values — every
group holds at least two members and ends in the member appended to it most
recently, which no other group receives in that position — so membership of
the arena index renders the Python test). -/
def combine_items_by_alias (score : Str → Str → ℕ) (thresh : ℕ) (S : Sources)
    (rbi : List (Str × List Item)) (st : CState) : CState × List ℕ :=
  S.foldl (fun a p => append_by_alias score thresh rbi p.1 p.2 a) (st, [])

/- The `__main__` combination steps, compare.py lines 378-390: run the exact
matcher, build the brand clusters, run the alias matcher, then concatenate
the code-based groups with the alias-based groups not already among them.
Result: the final state together with the merged list of groups. -/
def runMatch (score : Str → Str → ℕ) (brandThresh aliasThresh : ℕ) (S : Sources) :
    CState × List ℕ :=
  let st1 := combine_by_ean S
  let rbi := group_items_by_similar_brands score S brandThresh
  let pr := combine_items_by_alias score aliasThresh S rbi st1
  let res_first := pr.1.res_eans.map Prod.snd
  (pr.1, res_first ++ pr.2.filter (fun g => decide (g ∉ res_first)))

/- ------------------------------------------------------------------ -/
/- Specification-side definitions for the refinement claims.          -/
/- ------------------------------------------------------------------ -/

/- Brand cleaning as the specification sentence of claim C6 words it: trim
first, then substitute the bucket when the trimmed text has length at most
three. -/
def claimBrandSpec (b : Option Str) : Str :=
  let x := pyStrip (stop_words.foldl removeOcc (pyLower (b.getD [])))
  if x.length ≤ 3 then otherStr else x

/- Brand cleaning as the code actually behaves (amended C6): the length test
applies to the unstripped stop-word-removed text; the trim happens last. -/
def amendBrandSpec (b : Option Str) : Str :=
  let y := stop_words.foldl removeOcc (pyLower (b.getD []))
  if y.length ≤ 3 then otherStr else pyStrip y

/- The weight renderings that `create_item` removes from the name of a given
record (empty when the weight is absent, non-numeric or zero). -/
def rec_wm_patterns (rec : Rec) : List Str :=
  match rec.Weight with
  | some w =>
    if w ≠ 0 then wm_patterns w (rec.Weight_UnitOfMeasurement.getD []) else []
  | none => []

/- Decidable equality of `Except`, used to evaluate the parser claims. -/
instance exceptDecEq {e a : Type} [DecidableEq e] [DecidableEq a] :
    DecidableEq (Except e a) := fun x y =>
  match x, y with
  | .error u, .error v => decidable_of_iff (u = v) (by simp)
  | .ok u, .ok v => decidable_of_iff (u = v) (by simp)
  | .error _, .ok _ => isFalse (by simp)
  | .ok _, .error _ => isFalse (by simp)

/- ------------------------------------------------------------------ -/
/- Well-formedness of the matcher inputs, and the run invariants.     -/
/- ------------------------------------------------------------------ -/

/- The item occurs (as a value) in one of the source maps. -/
def ItemsOfSources (S : Sources) (it : Item) : Prop :=
  ∃ p ∈ S, ∃ q ∈ p.2, q.2 = it

/- What `add_source` and `prepare_parsed_list` guarantee about the `sources`
dict: distinct source names, per-source distinct code keys, and every entry
keyed by its own source name and code. -/
def SourcesWF (S : Sources) : Prop :=
  (S.map Prod.fst).Nodup ∧
  ∀ p ∈ S, (p.2.map Prod.fst).Nodup ∧
    ∀ q ∈ p.2, q.2.source_name = p.1 ∧ q.2.ean_code = some q.1

instance sourcesWFDec (S : Sources) : Decidable (SourcesWF S) := by
  unfold SourcesWF
  infer_instance

/- Every item of every brand-cluster list is one of the source items (what
`group_items_by_similar_brands` guarantees, proved below). -/
def RbiWF (S : Sources) (rbi : List (Str × List Item)) : Prop :=
  ∀ b ∈ rbi, ∀ it ∈ b.2, ItemsOfSources S it

/- The items keyed by code `E` across the source prefix `Q`, in processing
order. -/
def eanHolders (Q : Sources) (E : Str) : List Item :=
  Q.filterMap fun p => dlookup p.2 E

/- Whether source `s` holds code `E` within the prefix `Q`. -/
def isHolder (Q : Sources) (s E : Str) : Bool :=
  Q.any fun p => decide (p.1 = s) && (dlookup p.2 E).isSome

/- The exact matcher's loop invariant over the processed prefix `Q`:
`res_eans` holds exactly the codes seen in at least two sources, mapping the
i-th such code to group i, whose members are precisely the holders of the
code in processing order; `binds` marks exactly the holders of multiply-held
codes. -/
def Phase1Inv (Q : Sources) (st : CState) : Prop :=
  (st.res_eans.map Prod.fst).Nodup ∧
  st.res_eans.map Prod.snd = List.range st.groups.length ∧
  (∀ E g, dlookup st.res_eans E = some g → gget st.groups g = eanHolders Q E) ∧
  (∀ E g, dlookup st.res_eans E = some g → 2 ≤ (eanHolders Q E).length) ∧
  (∀ E, dlookup st.res_eans E = none → (eanHolders Q E).length ≤ 1) ∧
  (∀ s E, dlookup st.binds (s, some E) =
    if isHolder Q s E then dlookup st.res_eans E else none) ∧
  (∀ s : Str, dlookup st.binds (s, none) = none)

/- Every recorded `'bind'` points at a group that contains the item. -/
def Coherent (st : CState) : Prop :=
  ∀ k g, dlookup st.binds k = some g → ∃ it ∈ gget st.groups g, itemKey it = k

/- The run-wide invariant shared by both matchers: groups never hold two
items of one source, every recorded `'bind'` points at a group containing
the item, and members are genuine source items.  The converse of `Coherent`
(member implies bind) holds after the exact matcher but is destroyed by the
alias matcher, which never sets the appended member's `'bind'`. -/
def AliasInv (S : Sources) (st : CState) : Prop :=
  (∀ g, ((gget st.groups g).map Item.source_name).Nodup) ∧
  Coherent st ∧
  (∀ g it, it ∈ gget st.groups g → ItemsOfSources S it)

/- A record with an empty codes sequence (claim C4): it vanishes from the
per-source item map entirely. -/
def recNoCodes : Rec :=
  { id := "1".toList, name := "x".toList, Brand := none
    Weight := none, Weight_UnitOfMeasurement := none, EANs := [] }

/- A record from another source with the same (perfectly matching) alias. -/
def recOneCode : Rec :=
  { id := "2".toList, name := "x".toList, Brand := none
    Weight := none, Weight_UnitOfMeasurement := none, EANs := ["e".toList] }

/- The two-source run of claim C4. -/
def sourcesC4 : Sources :=
  [("a".toList, prepare_parsed_list ("a".toList) [recNoCodes]),
   ("b".toList, prepare_parsed_list ("b".toList) [recOneCode])]

/- Concrete records used by the witnesses and counterexamples below. -/

/- A brand whose stop-word removal leaves a trailing space: `'ABC
Professional'.lower()` becomes `'abc '` (length 4) after removing
`'professional'`. -/
def recBrandABC : Rec :=
  { id := "1".toList, name := "name".toList, Brand := some "ABC Professional".toList
    Weight := none, Weight_UnitOfMeasurement := none, EANs := [] }

/- A record whose derived brand and alias survive re-cleaning. -/
def recLoreal : Rec :=
  { id := "1".toList, name := "Loreal Shampoo".toList, Brand := some "Loreal".toList
    Weight := none, Weight_UnitOfMeasurement := none, EANs := [] }

/- Two sources sharing the code `'e'`, in both processing orders (claim C1's
witness). -/
def itWA : Item :=
  { source_name := "a".toList, id := "1".toList, ean_code := some "e".toList
    brand := "b1".toList, name := "n1".toList, wm := [], aliasStr := "x".toList
    EANs := ["e".toList] }

def itWB : Item :=
  { source_name := "b".toList, id := "2".toList, ean_code := some "e".toList
    brand := "b2".toList, name := "n2".toList, wm := [], aliasStr := "y".toList
    EANs := ["e".toList] }

def sourcesW : Sources :=
  [("a".toList, [("e".toList, itWA)]), ("b".toList, [("e".toList, itWB)])]

def sourcesWrev : Sources :=
  [("b".toList, [("e".toList, itWB)]), ("a".toList, [("e".toList, itWA)])]

/- Claim C3's three-source run: source `a` holds one record carrying two
codes, so its two normalized item copies share the (source, id) pair; sources
`b` and `c` each hold one of the two codes, so the exact matcher builds two
distinct groups. -/
def recTwoCodes : Rec :=
  { id := "1".toList, name := "p".toList, Brand := none
    Weight := none, Weight_UnitOfMeasurement := none
    EANs := ["e1".toList, "e2".toList] }

def recE1 : Rec :=
  { id := "2".toList, name := "q".toList, Brand := none
    Weight := none, Weight_UnitOfMeasurement := none, EANs := ["e1".toList] }

def recE2 : Rec :=
  { id := "3".toList, name := "r".toList, Brand := none
    Weight := none, Weight_UnitOfMeasurement := none, EANs := ["e2".toList] }

def sourcesC3 : Sources :=
  [("a".toList, prepare_parsed_list ("a".toList) [recTwoCodes]),
   ("b".toList, prepare_parsed_list ("b".toList) [recE1]),
   ("c".toList, prepare_parsed_list ("c".toList) [recE2])]

/- Claim C9's single-source run: two records of one source share the brand
and the (absent) weight, so they land in one brand bucket with equal weight
keys; the alias matcher never merges them because candidates from the item's
own source are excluded. -/
def recS1 : Rec :=
  { id := "1".toList, name := "Same Name".toList, Brand := some "BrandX".toList
    Weight := none, Weight_UnitOfMeasurement := none, EANs := ["e1".toList] }

def recS2 : Rec :=
  { id := "2".toList, name := "Same Name".toList, Brand := some "BrandX".toList
    Weight := none, Weight_UnitOfMeasurement := none, EANs := ["e2".toList] }

def sourcesC9 : Sources :=
  [("a".toList, prepare_parsed_list ("a".toList) [recS1, recS2])]

/- A scorer that is maximal exactly on byte-identical texts, for the
threshold witnesses. -/
def score100 : Str → Str → ℕ := fun a b => if a = b then 100 else 0

/- A cross-source candidate pair for the threshold-0 part of claim C9: `k1`
(source `b`) sits in the brand bucket of the incoming `nk` (source `a`) with
the same weight key. -/
def k1 : Item :=
  { source_name := "b".toList, id := "9".toList, ean_code := some "f".toList
    brand := "bb".toList, name := "m".toList, wm := "w".toList
    aliasStr := "y".toList, EANs := ["f".toList] }

def nk : Item :=
  { source_name := "a".toList, id := "8".toList, ean_code := some "g".toList
    brand := "bb".toList, name := "m2".toList, wm := "w".toList
    aliasStr := "z".toList, EANs := ["g".toList] }

def rbiK : List (Str × List Item) := [("bb".toList, [k1, nk])]

/- Claim C5's two-source run: `iX` (source `a`) and `iY` (source `b`) share
a brand bucket, a weight key and a byte-identical alias but no code, so the
alias matcher appends `iX` to the fresh group seeded on the candidate `iY` —
and only `iY` receives a `'bind'` key. -/
def iX : Item :=
  { source_name := "a".toList, id := "1".toList, ean_code := some "c1".toList
    brand := "brandy".toList, name := "n".toList, wm := "w".toList
    aliasStr := "x".toList, EANs := ["c1".toList] }

def iY : Item :=
  { source_name := "b".toList, id := "2".toList, ean_code := some "c2".toList
    brand := "brandy".toList, name := "n".toList, wm := "w".toList
    aliasStr := "x".toList, EANs := ["c2".toList] }

def sourcesBug : Sources :=
  [("a".toList, [("c1".toList, iX)]), ("b".toList, [("c2".toList, iY)])]

/- ------------------------------------------------------------------ -/
/- String-layer lemmas.                                               -/
/- ------------------------------------------------------------------ -/

theorem charOfNat_toNat (n : ℕ) (h : n.isValidChar) : (Char.ofNat n).toNat = n := by
  simp only [Char.ofNat, h, dif_pos, Char.toNat, Char.ofNatAux]
  rfl

theorem pyLowerChar_idem (c : Char) : pyLowerChar (pyLowerChar c) = pyLowerChar c := by
  unfold pyLowerChar
  split
  · next h =>
    have hval : (c.toNat + 32).isValidChar := by
      unfold Nat.isValidChar
      omega
    have ht : (Char.ofNat (c.toNat + 32)).toNat = c.toNat + 32 := charOfNat_toNat _ hval
    rw [if_neg]
    intro hc
    omega
  · rfl

theorem pyLower_fix (s : Str) (h : ∀ c ∈ s, pyLowerChar c = c) : pyLower s = s := by
  induction s with
  | nil => rfl
  | cons a l ih =>
    simp only [pyLower, List.map_cons] at *
    rw [h a (by simp), ih]
    intro c hc
    exact h c (by simp [hc])

theorem mem_pyLower_fix (s : Str) (c : Char) (h : c ∈ pyLower s) : pyLowerChar c = c := by
  simp only [pyLower, List.mem_map] at h
  obtain ⟨a, _, rfl⟩ := h
  exact pyLowerChar_idem a

theorem mem_of_mem_removeOccAux (pat : Str) (fuel : ℕ) (s : Str) (c : Char)
    (h : c ∈ removeOccAux pat s fuel) : c ∈ s := by
  induction fuel generalizing s with
  | zero =>
    cases s <;> simpa [removeOccAux] using h
  | succ fuel ih =>
    cases s with
    | nil => simpa [removeOccAux] using h
    | cons a rest =>
      rw [removeOccAux] at h
      split at h
      · exact List.mem_of_mem_drop (ih _ h)
      · rcases List.mem_cons.mp h with h1 | h2
        · simp [h1]
        · simp [ih _ h2]

theorem mem_of_mem_removeOcc (s pat : Str) (c : Char) (h : c ∈ removeOcc s pat) : c ∈ s := by
  cases pat with
  | nil => simpa [removeOcc] using h
  | cons a l => exact mem_of_mem_removeOccAux _ _ _ _ (by simpa [removeOcc] using h)

theorem mem_of_mem_foldl_removeOcc (l : List Str) (x : Str) (c : Char)
    (h : c ∈ l.foldl removeOcc x) : c ∈ x := by
  induction l generalizing x with
  | nil => simpa using h
  | cons p ps ih => exact mem_of_mem_removeOcc _ _ _ (ih _ h)

theorem mem_of_mem_pyStrip (s : Str) (c : Char) (h : c ∈ pyStrip s) : c ∈ s := by
  unfold pyStrip at h
  rw [List.mem_reverse] at h
  have h2 := List.dropWhile_sublist (l := (s.dropWhile isPySpace).reverse) (p := isPySpace)
  have h3 := h2.mem h
  rw [List.mem_reverse] at h3
  exact (List.dropWhile_sublist _).mem h3

theorem foldl_removeOcc_id (l : List Str) (x : Str) (h : ∀ p ∈ l, removeOcc x p = x) :
    l.foldl removeOcc x = x := by
  induction l with
  | nil => rfl
  | cons p ps ih =>
    have hp : removeOcc x p = x := h p (by simp)
    simp only [List.foldl_cons, hp]
    exact ih fun q hq => h q (by simp [hq])

theorem dropWhile_head_false (p : Char → Bool) (x : Char) (xs : Str)
    (h : (x :: xs).dropWhile p = x :: xs) : p x = false := by
  cases hpx : p x
  · rfl
  · rw [List.dropWhile_cons_of_pos hpx] at h
    have := (List.dropWhile_sublist (l := xs) (p := p)).length_le
    have h2 : (xs.dropWhile p).length = (x :: xs).length := by rw [h]
    simp only [List.length_cons] at h2
    omega

theorem pyStrip_eq_rdrop (s : Str) :
    pyStrip s = (s.dropWhile isPySpace).rdropWhile isPySpace := rfl

theorem dropWhile_fix_of_isPrefix (p : Char → Bool) (l t : Str) (ht : t <+: l)
    (hl : l.dropWhile p = l) : t.dropWhile p = t := by
  cases t with
  | nil => rfl
  | cons x xs =>
    obtain ⟨u, hu⟩ := ht
    have hx : p x = false := by
      apply dropWhile_head_false p x (xs ++ u)
      rw [List.cons_append, hu] at *
      exact hl
    rw [List.dropWhile_cons_of_neg (by simp [hx])]

theorem pyStrip_idem (s : Str) : pyStrip (pyStrip s) = pyStrip s := by
  rw [pyStrip_eq_rdrop, pyStrip_eq_rdrop]
  have h1 : ((s.dropWhile isPySpace).rdropWhile isPySpace).dropWhile isPySpace
      = (s.dropWhile isPySpace).rdropWhile isPySpace :=
    dropWhile_fix_of_isPrefix _ _ _ (List.rdropWhile_prefix _ _)
      (List.dropWhile_idempotent _ _)
  rw [h1, List.rdropWhile_idempotent]

/- ------------------------------------------------------------------ -/
/- Structure of create_item.                                          -/
/- ------------------------------------------------------------------ -/

theorem create_item_brand (sour : Str) (rec : Rec) :
    (create_item sour rec).brand = brandClean rec.Brand := rfl

theorem create_item_aliasStr (sour : Str) (rec : Rec) :
    (create_item sour rec).aliasStr =
      pyStrip (removeOcc
        (removeOcc ((rec_wm_patterns rec).foldl removeOcc (pyLower rec.name))
          (pyLower (rec.Brand.getD [])))
        (stop_words.foldl removeOcc (pyLower (rec.Brand.getD [])))) := by
  unfold create_item rec_wm_patterns
  cases hW : rec.Weight with
  | none => rfl
  | some w =>
    by_cases hw0 : w ≠ 0
    · simp only [if_pos hw0]
    · simp only [if_neg hw0, List.foldl_nil]

theorem otherStr_chars_lower (c : Char) (h : c ∈ otherStr) : pyLowerChar c = c := by
  have : otherStr = ['o', 't', 'h', 'e', 'r'] := by decide
  rw [this] at h
  simp only [List.mem_cons, List.not_mem_nil, or_false] at h
  rcases h with rfl | rfl | rfl | rfl | rfl <;> decide

theorem brandClean_chars_lower (b : Option Str) (c : Char) (h : c ∈ brandClean b) :
    pyLowerChar c = c := by
  unfold brandClean at h
  have h2 := mem_of_mem_pyStrip _ _ h
  by_cases hc : (stop_words.foldl removeOcc (pyLower (b.getD []))).length ≤ 3
  · rw [if_pos hc] at h2
    exact otherStr_chars_lower c h2
  · rw [if_neg hc] at h2
    exact mem_pyLower_fix _ _ (mem_of_mem_foldl_removeOcc _ _ _ h2)

theorem aliasStr_chars_lower (sour : Str) (rec : Rec) (c : Char)
    (h : c ∈ (create_item sour rec).aliasStr) : pyLowerChar c = c := by
  rw [create_item_aliasStr] at h
  have h2 := mem_of_mem_pyStrip _ _ h
  have h3 := mem_of_mem_removeOcc _ _ _ h2
  have h4 := mem_of_mem_removeOcc _ _ _ h3
  have h5 := mem_of_mem_foldl_removeOcc _ _ _ h4
  exact mem_pyLower_fix _ _ h5

theorem pyStrip_brandClean (b : Option Str) : pyStrip (brandClean b) = brandClean b := by
  show pyStrip (pyStrip _) = pyStrip _
  exact pyStrip_idem _

theorem pyStrip_aliasStr (sour : Str) (rec : Rec) :
    pyStrip ((create_item sour rec).aliasStr) = (create_item sour rec).aliasStr := by
  rw [create_item_aliasStr]
  exact pyStrip_idem _

theorem rec_wm_patterns_name_irrel (rec : Rec) (a : Str) :
    rec_wm_patterns { rec with name := a } = rec_wm_patterns rec := by
  cases rec
  rfl

/- ------------------------------------------------------------------ -/
/- Claims C6, C7, C8, C10.                                            -/
/- ------------------------------------------------------------------ -/

/-- C6 counterexample: brand cleaning does not follow the claimed order of
operations.  For the raw brand `'ABC Professional'` the code produces `'abc'`
(the length test sees the unstripped `'abc '` of length 4), while the claimed
specification (trim before the length test) produces `'other'`. -/
theorem C6_counterexample :
    (create_item ("s".toList) recBrandABC).brand ≠ claimBrandSpec recBrandABC.Brand := by
  decide

/-- C6 amended: brand cleaning lowercases, removes the stop words in order,
replaces the result with `'other'` exactly when the UNtrimmed cleaned text has
length at most 3, and trims whitespace last. -/
theorem C6_brand_clean_amended (sour : Str) (rec : Rec) :
    (create_item sour rec).brand = amendBrandSpec rec.Brand := by
  rw [create_item_brand]
  simp only [brandClean, amendBrandSpec]
  by_cases hlen : (stop_words.foldl removeOcc (pyLower (rec.Brand.getD []))).length ≤ 3
  · rw [if_pos hlen, if_pos hlen]
    decide
  · rw [if_neg hlen, if_neg hlen]

/-- C7: the size parser is not total.  On `'1.2.3 ml'` the token `'1.2.3'`
passes the `isdigit` guard (every dot is removed before testing) and is then
handed to `float`, which raises `ValueError`; the run aborts instead of
yielding "no amount". -/
theorem C7_size_parser_raises :
    parse_size ("1.2.3 ml".toList) = Except.error () := by decide

/-- C10: an amount that parses to the numeric value 0 (for example `'0 ml'`)
is omitted from the parser's result (`if amount:` is falsy for `0.0`), so a
zero amount is indistinguishable from an absent or unparsable one. -/
theorem C10_zero_amount_omitted (s : Str)
    (h : parse_size_amount s = Except.ok (some 0)) :
    ∃ r, parse_size s = Except.ok r ∧ r.Weight = none := by
  unfold parse_size
  rw [h]
  exact ⟨_, rfl, by simp⟩

theorem C10_witness :
    parse_size_amount ("0 ml".toList) = Except.ok (some 0) ∧
      ∃ r, parse_size ("0 ml".toList) = Except.ok r ∧ r.Weight = none :=
  ⟨by decide, C10_zero_amount_omitted _ (by decide)⟩

/-- C8 counterexample: normalization is not idempotent on its own output.
For the raw brand `'ABC Professional'` the derived cleaned brand is `'abc'`
(stripped after the length test); feeding `'abc'` back through brand cleaning
yields `'other'`. -/
theorem C8_counterexample :
    brandClean (some ((create_item ("s".toList) recBrandABC).brand)) ≠
      (create_item ("s".toList) recBrandABC).brand := by
  decide

theorem brandClean_fix (d : Str) (hlow : pyLower d = d)
    (hfold : stop_words.foldl removeOcc d = d) (hlen : 3 < d.length)
    (hstrip : pyStrip d = d) : brandClean (some d) = d := by
  unfold brandClean
  simp only [Option.getD_some]
  rw [hlow, hfold, if_neg (by omega), hstrip]

/-- C8 amended: re-cleaning is the identity on derived texts under the
conditions the counterexample exhibits as necessary.  (1) Feeding the derived
brand back through brand cleaning returns it unchanged provided no stop word
occurs in it and its length exceeds 3 (otherwise it may collapse to
`'other'`).  (2) Feeding the derived alias back through the name-cleaning
pipeline (running `create_item` on the record with the alias as its name)
returns it unchanged provided the alias no longer contains any weight
rendering, the raw lowercased brand, or the stop-word-trimmed brand (naive
substring removal can re-expose occurrences, as in `'aaabbb'.replace('ab','')`). -/
theorem C8_normalization_idem_amended :
    (∀ sour rec,
      (∀ cw ∈ stop_words,
        removeOcc ((create_item sour rec).brand) cw = (create_item sour rec).brand) →
      3 < ((create_item sour rec).brand).length →
      brandClean (some ((create_item sour rec).brand)) = (create_item sour rec).brand) ∧
    (∀ sour rec,
      (∀ p ∈ rec_wm_patterns rec,
        removeOcc ((create_item sour rec).aliasStr) p = (create_item sour rec).aliasStr) →
      removeOcc ((create_item sour rec).aliasStr) (pyLower (rec.Brand.getD [])) =
        (create_item sour rec).aliasStr →
      removeOcc ((create_item sour rec).aliasStr)
          (stop_words.foldl removeOcc (pyLower (rec.Brand.getD []))) =
        (create_item sour rec).aliasStr →
      (create_item sour { rec with name := (create_item sour rec).aliasStr }).aliasStr =
        (create_item sour rec).aliasStr) := by
  constructor
  · intro sour rec h4 h5
    rw [create_item_brand] at *
    exact brandClean_fix _
      (pyLower_fix _ (fun c hc => brandClean_chars_lower rec.Brand c hc))
      (foldl_removeOcc_id _ _ h4) h5 (pyStrip_brandClean rec.Brand)
  · intro sour rec h1 h2 h3
    rw [create_item_aliasStr]
    rw [rec_wm_patterns_name_irrel]
    have hB : ({ rec with name := (create_item sour rec).aliasStr } : Rec).Brand = rec.Brand := rfl
    rw [hB]
    have hname : ({ rec with name := (create_item sour rec).aliasStr } : Rec).name =
        (create_item sour rec).aliasStr := rfl
    rw [hname]
    have hlow : pyLower ((create_item sour rec).aliasStr) = (create_item sour rec).aliasStr :=
      pyLower_fix _ (fun c hc => aliasStr_chars_lower sour rec c hc)
    rw [hlow]
    rw [foldl_removeOcc_id _ _ h1, h2, h3, pyStrip_aliasStr]

theorem C8_witness :
    ((∀ cw ∈ stop_words,
        removeOcc ((create_item ("s".toList) recLoreal).brand) cw =
          (create_item ("s".toList) recLoreal).brand) ∧
      3 < ((create_item ("s".toList) recLoreal).brand).length ∧
      brandClean (some ((create_item ("s".toList) recLoreal).brand)) =
        (create_item ("s".toList) recLoreal).brand) ∧
    ((∀ p ∈ rec_wm_patterns recLoreal,
        removeOcc ((create_item ("s".toList) recLoreal).aliasStr) p =
          (create_item ("s".toList) recLoreal).aliasStr) ∧
      (create_item ("s".toList)
          { recLoreal with name := (create_item ("s".toList) recLoreal).aliasStr }).aliasStr =
        (create_item ("s".toList) recLoreal).aliasStr) :=
  ⟨⟨by decide, by decide,
      C8_normalization_idem_amended.1 ("s".toList) recLoreal (by decide) (by decide)⟩,
    ⟨by decide,
      C8_normalization_idem_amended.2 ("s".toList) recLoreal (by decide) (by decide) (by decide)⟩⟩

/- ------------------------------------------------------------------ -/
/- Dict, arena and extractOne lemmas.                                 -/
/- ------------------------------------------------------------------ -/

theorem dlookup_eq_none {κ β : Type} [DecidableEq κ] (l : List (κ × β)) (k : κ) :
    dlookup l k = none ↔ k ∉ l.map Prod.fst := by
  induction l with
  | nil => simp [dlookup]
  | cons e t ih =>
    by_cases hk : k = e.1
    · simp [dlookup, hk]
    · simp [dlookup, hk, ih]

theorem dlookup_mem {κ β : Type} [DecidableEq κ] (l : List (κ × β)) (k : κ) (v : β)
    (h : dlookup l k = some v) : (k, v) ∈ l := by
  induction l with
  | nil => simp [dlookup] at h
  | cons e t ih =>
    by_cases hk : k = e.1
    · rw [dlookup, if_pos hk] at h
      have he : (k, v) = e := by
        have h2 := Option.some.inj h
        cases e
        simp_all
      rw [he]
      exact List.mem_cons_self _ _
    · rw [dlookup, if_neg hk] at h
      exact List.mem_cons_of_mem _ (ih h)

theorem mem_dlookup {κ β : Type} [DecidableEq κ] (l : List (κ × β)) (k : κ) (v : β)
    (hmem : (k, v) ∈ l) (hnd : (l.map Prod.fst).Nodup) : dlookup l k = some v := by
  induction l with
  | nil => simp at hmem
  | cons e t ih =>
    simp only [List.map_cons, List.nodup_cons] at hnd
    rcases List.mem_cons.mp hmem with h1 | h2
    · rw [← h1, dlookup, if_pos rfl]
    · have hk : k ≠ e.1 := by
        intro hk2
        apply hnd.1
        rw [← hk2]
        exact List.mem_map.mpr ⟨(k, v), h2, rfl⟩
      rw [dlookup, if_neg hk]
      exact ih h2 hnd.2

theorem dlookup_append_left {κ β : Type} [DecidableEq κ] (l1 l2 : List (κ × β)) (k : κ)
    (v : β) (h : dlookup l1 k = some v) : dlookup (l1 ++ l2) k = some v := by
  induction l1 with
  | nil => simp [dlookup] at h
  | cons e t ih =>
    by_cases hk : k = e.1
    · rw [dlookup, if_pos hk] at h
      rw [List.cons_append, dlookup, if_pos hk]
      exact h
    · rw [dlookup, if_neg hk] at h
      rw [List.cons_append, dlookup, if_neg hk]
      exact ih h

theorem dlookup_append_right {κ β : Type} [DecidableEq κ] (l1 l2 : List (κ × β)) (k : κ)
    (h : dlookup l1 k = none) : dlookup (l1 ++ l2) k = dlookup l2 k := by
  induction l1 with
  | nil => simp
  | cons e t ih =>
    by_cases hk : k = e.1
    · rw [dlookup, if_pos hk] at h
      simp at h
    · rw [dlookup, if_neg hk] at h
      rw [List.cons_append, dlookup, if_neg hk]
      exact ih h

theorem dlookup_dictInsert_self {κ β : Type} [DecidableEq κ] (l : List (κ × β)) (k : κ)
    (v : β) : dlookup (dictInsert l k v) k = some v := by
  induction l with
  | nil => simp [dictInsert, dlookup]
  | cons e t ih =>
    by_cases hk : k = e.1
    · rw [dictInsert, if_pos hk, dlookup, if_pos hk]
    · rw [dictInsert, if_neg hk, dlookup, if_neg hk]
      exact ih

theorem dlookup_dictInsert_ne {κ β : Type} [DecidableEq κ] (l : List (κ × β)) (k k2 : κ)
    (v : β) (hne : k2 ≠ k) : dlookup (dictInsert l k v) k2 = dlookup l k2 := by
  induction l with
  | nil => simp [dictInsert, dlookup, hne]
  | cons e t ih =>
    by_cases hk : k = e.1
    · subst hk
      rw [dictInsert, if_pos rfl]
      simp [dlookup, hne]
    · rw [dictInsert, if_neg hk]
      by_cases hk2 : k2 = e.1
      · rw [dlookup, if_pos hk2, dlookup, if_pos hk2]
      · rw [dlookup, if_neg hk2, dlookup, if_neg hk2]
        exact ih

theorem gget_eq_nil_of_le (gs : List (List Item)) (g : ℕ) (h : gs.length ≤ g) :
    gget gs g = [] := by
  unfold gget
  rw [List.getD_eq_default]
  exact h

theorem lt_of_mem_gget (gs : List (List Item)) (g : ℕ) (it : Item)
    (h : it ∈ gget gs g) : g < gs.length := by
  by_contra hge
  rw [gget_eq_nil_of_le _ _ (by omega)] at h
  simp at h

theorem gget_lt (gs : List (List Item)) (g : ℕ) (h : g < gs.length) :
    gget gs g = gs.get ⟨g, h⟩ := by
  unfold gget
  exact List.getD_eq_get _ _ h

theorem gget_set_self (gs : List (List Item)) (g : ℕ) (x : List Item)
    (h : g < gs.length) : gget (gs.set g x) g = x := by
  rw [gget_lt _ _ (by simpa using h)]
  simp [List.get_set]

theorem gget_set_ne (gs : List (List Item)) (g g2 : ℕ) (x : List Item)
    (hne : g2 ≠ g) : gget (gs.set g x) g2 = gget gs g2 := by
  unfold gget
  by_cases h2 : g2 < gs.length
  · rw [List.getD_eq_get _ _ (by simpa using h2), List.getD_eq_get _ _ h2]
    simp only [List.get_eq_getElem]
    exact List.getElem_set_ne (Ne.symm hne) _
  · rw [List.getD_eq_default _ _ (by simp; omega), List.getD_eq_default _ _ (by omega)]

theorem gget_append_lt (gs : List (List Item)) (x : List Item) (g : ℕ)
    (h : g < gs.length) : gget (gs ++ [x]) g = gget gs g := by
  rw [gget_lt _ _ (by simp; omega), gget_lt _ _ h]
  exact (List.get_append g h).symm ▸ rfl

theorem gget_append_self (gs : List (List Item)) (x : List Item) :
    gget (gs ++ [x]) gs.length = x := by
  unfold gget
  rw [List.getD_eq_get _ _ (by simp)]
  simp

theorem extractOne_eq_none (f : Str → ℕ) (l : List Str) :
    extractOne f l = none ↔ l = [] := by
  cases l <;> simp [extractOne]

theorem extractOne_spec (f : Str → ℕ) (l : List Str) (a : Str) (n : ℕ)
    (h : extractOne f l = some (a, n)) : a ∈ l ∧ n = f a := by
  cases l with
  | nil => simp [extractOne] at h
  | cons c cs =>
    rw [extractOne] at h
    obtain h2 := Option.some.inj h
    have key : ∀ (cs2 : List Str) (b : Str × ℕ), b.2 = f b.1 →
        (cs2.foldl (fun b x => if f x > b.2 then (x, f x) else b) b).2 =
          f (cs2.foldl (fun b x => if f x > b.2 then (x, f x) else b) b).1 ∧
        ((cs2.foldl (fun b x => if f x > b.2 then (x, f x) else b) b) = b ∨
          (cs2.foldl (fun b x => if f x > b.2 then (x, f x) else b) b).1 ∈ cs2) := by
      intro cs2
      induction cs2 with
      | nil => intro b hb; exact ⟨hb, Or.inl rfl⟩
      | cons d ds ih =>
        intro b hb
        simp only [List.foldl_cons]
        by_cases hd : f d > b.2
        · rw [if_pos hd]
          obtain ⟨e1, e2⟩ := ih (d, f d) rfl
          refine ⟨e1, Or.inr ?_⟩
          rcases e2 with e2 | e2
          · rw [e2]
            simp
          · simp [e2]
        · rw [if_neg hd]
          obtain ⟨e1, e2⟩ := ih b hb
          refine ⟨e1, ?_⟩
          rcases e2 with e2 | e2
          · exact Or.inl e2
          · exact Or.inr (by simp [e2])
    obtain ⟨e1, e2⟩ := key cs (c, f c) rfl
    constructor
    · rcases e2 with e2 | e2
      · rw [h2] at e2
        obtain h3 := congrArg Prod.fst e2
        simp at h3
        simp [h3]
      · rw [h2] at e2
        simp at e2
        simp [e2]
    · rw [h2] at e1
      simpa using e1

/- ------------------------------------------------------------------ -/
/- Claim C4: records with an empty codes sequence.                    -/
/- ------------------------------------------------------------------ -/

theorem mem_dictInsert {κ β : Type} [DecidableEq κ] (l : List (κ × β)) (k : κ) (v : β)
    (x : κ × β) (h : x ∈ dictInsert l k v) : x ∈ l ∨ x = (k, v) := by
  induction l with
  | nil => simpa [dictInsert] using h
  | cons e t ih =>
    by_cases hk : k = e.1
    · rw [dictInsert, if_pos hk] at h
      rcases List.mem_cons.mp h with h1 | h2
      · right
        rw [h1, ← hk]
      · left
        exact List.mem_cons_of_mem _ h2
    · rw [dictInsert, if_neg hk] at h
      rcases List.mem_cons.mp h with h1 | h2
      · left
        simp [h1]
      · rcases ih h2 with h3 | h3
        · left
          exact List.mem_cons_of_mem _ h3
        · right
          exact h3

theorem mem_ean_fold (item : Item) (eans : List Str) (acc : List (Str × Item))
    (x : Str × Item)
    (h : x ∈ eans.foldl (fun acc2 e => dictInsert acc2 e { item with ean_code := some e }) acc) :
    x ∈ acc ∨ ∃ e ∈ eans, x = (e, { item with ean_code := some e }) := by
  induction eans generalizing acc with
  | nil => exact Or.inl h
  | cons e es ih =>
    simp only [List.foldl_cons] at h
    rcases ih _ h with h1 | h1
    · rcases mem_dictInsert _ _ _ _ h1 with h2 | h2
      · exact Or.inl h2
      · exact Or.inr ⟨e, by simp, h2⟩
    · obtain ⟨e2, he2, hx⟩ := h1
      exact Or.inr ⟨e2, by simp [he2], hx⟩

theorem mem_prepare_parsed_list (sour : Str) (recs : List Rec) (x : Str × Item)
    (h : x ∈ prepare_parsed_list sour recs) :
    ∃ rec ∈ recs, ∃ e ∈ rec.EANs, x = (e, { create_item sour rec with ean_code := some e }) := by
  unfold prepare_parsed_list at h
  have key : ∀ (items : List Item) (acc : List (Str × Item)),
      x ∈ items.foldl
        (fun acc item =>
          item.EANs.foldl (fun acc2 e => dictInsert acc2 e { item with ean_code := some e }) acc)
        acc →
      x ∈ acc ∨ ∃ item ∈ items, ∃ e ∈ item.EANs, x = (e, { item with ean_code := some e }) := by
    intro items
    induction items with
    | nil => exact fun acc h2 => Or.inl h2
    | cons it its ih =>
      intro acc h2
      simp only [List.foldl_cons] at h2
      rcases ih _ h2 with h3 | h3
      · rcases mem_ean_fold _ _ _ _ h3 with h4 | h4
        · exact Or.inl h4
        · obtain ⟨e, he, hx⟩ := h4
          exact Or.inr ⟨it, by simp, e, he, hx⟩
      · obtain ⟨it2, hit2, e, he, hx⟩ := h3
        exact Or.inr ⟨it2, by simp [hit2], e, he, hx⟩
  rcases key _ _ h with h1 | h1
  · simp at h1
  · obtain ⟨it, hit, e, he, hx⟩ := h1
    obtain ⟨rec, hrec, rfl⟩ := List.mem_map.mp hit
    have hE : ({ create_item sour rec with ean_code := some e } : Item).EANs = rec.EANs := rfl
    exact ⟨rec, hrec, e, he, hx⟩

/-- C4 counterexample: a record with an empty codes sequence does NOT
participate in alias matching.  Its normalization yields an empty per-source
map (`prepare_parsed_list` keys one copy per code, so zero codes produce
nothing), and since the alias matcher iterates and pools exactly these maps,
even a byte-identical alias in another source, a constant perfect score and
threshold 0 produce no group. -/
theorem C4_counterexample :
    prepare_parsed_list ("a".toList) [recNoCodes] = [] ∧
    (combine_items_by_alias (fun _ _ => 100) 0 sourcesC4
        (group_items_by_similar_brands (fun _ _ => 100) sourcesC4 0)
        (combine_by_ean sourcesC4)).2 = [] := by
  decide

/-- C4 amended: every entry of a source's code-indexed map is keyed by one of
the codes of the record it came from (the copy stores that code in
`ean_code`); a record whose codes sequence is empty therefore yields no entry
at all, and — since both matchers consume only these maps — it participates
neither in exact nor in alias matching. -/
theorem C4_no_entry_for_zero_codes (sour : Str) (recs : List Rec) (e : Str) (it : Item)
    (h : (e, it) ∈ prepare_parsed_list sour recs) :
    it.ean_code = some e ∧ e ∈ it.EANs ∧ it.EANs ≠ [] := by
  obtain ⟨rec, _, e2, he2, hx⟩ := mem_prepare_parsed_list sour recs _ h
  have he : e = e2 := congrArg Prod.fst hx
  have hit : it = { create_item sour rec with ean_code := some e2 } := congrArg Prod.snd hx
  subst he
  subst hit
  refine ⟨rfl, he2, ?_⟩
  intro hnil
  have h2 : rec.EANs = [] := hnil
  rw [h2] at he2
  simp at he2

theorem C4_witness :
    (("e".toList, ({ create_item ("b".toList) recOneCode with ean_code := some "e".toList } : Item))
        ∈ prepare_parsed_list ("b".toList) [recOneCode]) ∧
    (({ create_item ("b".toList) recOneCode with ean_code := some "e".toList } : Item).ean_code =
        some "e".toList ∧
      "e".toList ∈ ({ create_item ("b".toList) recOneCode with ean_code := some "e".toList } : Item).EANs ∧
      ({ create_item ("b".toList) recOneCode with ean_code := some "e".toList } : Item).EANs ≠ []) :=
  ⟨by decide, C4_no_entry_for_zero_codes ("b".toList) [recOneCode] _ _ (by decide)⟩

/- ------------------------------------------------------------------ -/
/- Holder lemmas for the exact matcher.                               -/
/- ------------------------------------------------------------------ -/

theorem dlookup_snoc_ne {κ β : Type} [DecidableEq κ] (l : List (κ × β)) (k k2 : κ) (v : β)
    (hne : k2 ≠ k) : dlookup (l ++ [(k, v)]) k2 = dlookup l k2 := by
  cases h : dlookup l k2 with
  | some w => exact dlookup_append_left _ _ _ _ h
  | none =>
    rw [dlookup_append_right _ _ _ h]
    simp [dlookup, hne, h]

theorem dlookup_snoc_self {κ β : Type} [DecidableEq κ] (l : List (κ × β)) (k : κ) (v : β)
    (h : dlookup l k = none) : dlookup (l ++ [(k, v)]) k = some v := by
  rw [dlookup_append_right _ _ _ h]
  simp [dlookup]

theorem eanHolders_cons (p : Str × List (Str × Item)) (Q : Sources) (E : Str) :
    eanHolders (p :: Q) E = (dlookup p.2 E).toList ++ eanHolders Q E := by
  unfold eanHolders
  rw [List.filterMap_cons]
  cases dlookup p.2 E <;> simp

theorem eanHolders_append (Q : Sources) (p : Str × List (Str × Item)) (E : Str) :
    eanHolders (Q ++ [p]) E = eanHolders Q E ++ (dlookup p.2 E).toList := by
  unfold eanHolders
  rw [List.filterMap_append]
  cases h : dlookup p.2 E <;> simp [h]

theorem mem_eanHolders (Q : Sources) (p : Str × List (Str × Item)) (E : Str) (it : Item)
    (hp : p ∈ Q) (h : dlookup p.2 E = some it) : it ∈ eanHolders Q E :=
  List.mem_filterMap.mpr ⟨p, hp, h⟩

theorem eanHolders_sources (Q : Sources) (E : Str) (it : Item)
    (h : it ∈ eanHolders Q E) : ∃ p ∈ Q, dlookup p.2 E = some it :=
  List.mem_filterMap.mp h

theorem two_eanHolders (Q : Sources) (E : Str) (p q : Str × List (Str × Item))
    (hp : p ∈ Q) (hq : q ∈ Q) (hne : p.1 ≠ q.1)
    (h1 : (dlookup p.2 E).isSome) (h2 : (dlookup q.2 E).isSome) :
    2 ≤ (eanHolders Q E).length := by
  induction Q with
  | nil => simp at hp
  | cons r rs ih =>
    rw [eanHolders_cons]
    rcases List.mem_cons.mp hp with hp1 | hp2
    · have hq2 : q ∈ rs := by
        rcases List.mem_cons.mp hq with hq1 | hq2
        · exact absurd (by rw [hp1, hq1]) hne
        · exact hq2
      obtain ⟨it, hit⟩ := Option.isSome_iff_exists.mp h2
      have hmem := mem_eanHolders rs q E it hq2 hit
      have hlen : 1 ≤ (eanHolders rs E).length := List.length_pos.mpr (by
        intro hnil
        rw [hnil] at hmem
        simp at hmem)
      rw [← hp1]
      obtain ⟨it1, hit1⟩ := Option.isSome_iff_exists.mp h1
      rw [hit1]
      simp only [Option.toList_some, List.length_append, List.length_cons, List.length_nil]
      omega
    · rcases List.mem_cons.mp hq with hq1 | hq2
      · obtain ⟨it, hit⟩ := Option.isSome_iff_exists.mp h1
        have hmem := mem_eanHolders rs p E it hp2 hit
        have hlen : 1 ≤ (eanHolders rs E).length := List.length_pos.mpr (by
          intro hnil
          rw [hnil] at hmem
          simp at hmem)
        rw [← hq1]
        obtain ⟨it2, hit2⟩ := Option.isSome_iff_exists.mp h2
        rw [hit2]
        simp only [Option.toList_some, List.length_append, List.length_cons, List.length_nil]
        omega
      · have := ih hp2 hq2
        simp only [List.length_append]
        omega

theorem eq_singleton_of_mem_len_le {α : Type} (l : List α) (a : α) (h : a ∈ l)
    (hl : l.length ≤ 1) : l = [a] := by
  cases l with
  | nil => simp at h
  | cons b t =>
    cases t with
    | nil =>
      rcases List.mem_cons.mp h with h1 | h1
      · rw [h1]
      · simp at h1
    | cons c u => simp at hl

theorem isHolder_append (Q : Sources) (p : Str × List (Str × Item)) (s E : Str) :
    isHolder (Q ++ [p]) s E =
      (isHolder Q s E || (decide (p.1 = s) && (dlookup p.2 E).isSome)) := by
  unfold isHolder
  rw [List.any_append]
  simp

theorem isHolder_of_mem (Q : Sources) (p : Str × List (Str × Item)) (s E : Str)
    (hp : p ∈ Q) (hs : p.1 = s) (h : (dlookup p.2 E).isSome) : isHolder Q s E = true := by
  unfold isHolder
  rw [List.any_eq_true]
  exact ⟨p, hp, by simp [hs, h]⟩

theorem exists_of_isHolder (Q : Sources) (s E : Str) (h : isHolder Q s E = true) :
    ∃ p ∈ Q, p.1 = s ∧ (dlookup p.2 E).isSome := by
  unfold isHolder at h
  rw [List.any_eq_true] at h
  obtain ⟨p, hp, hc⟩ := h
  simp at hc
  exact ⟨p, hp, hc.1, by simp [hc.2]⟩

theorem findSome?_exists {α β : Type} (f : α → Option β) (l : List α) (b : β)
    (h : l.findSome? f = some b) : ∃ a ∈ l, f a = some b := by
  induction l with
  | nil => simp [List.findSome?] at h
  | cons x xs ih =>
    cases hx : f x with
    | some c =>
      simp only [List.findSome?_cons, hx] at h
      exact ⟨x, by simp, by rw [hx, h]⟩
    | none =>
      simp only [List.findSome?_cons, hx] at h
      obtain ⟨a, ha, hfa⟩ := ih h
      exact ⟨a, by simp [ha], hfa⟩

theorem findSome?_none {α β : Type} (f : α → Option β) (l : List α)
    (h : l.findSome? f = none) : ∀ a ∈ l, f a = none := by
  induction l with
  | nil => simp
  | cons x xs ih =>
    cases hx : f x with
    | some c =>
      simp only [List.findSome?_cons, hx] at h
      exact absurd h (by simp)
    | none =>
      simp only [List.findSome?_cons, hx] at h
      intro a ha
      rcases List.mem_cons.mp ha with h1 | h1
      · rw [h1, hx]
      · exact ih h a h1

theorem nodup_snoc {α : Type} (l : List α) (a : α) (h1 : l.Nodup) (h2 : a ∉ l) :
    (l ++ [a]).Nodup := by
  rw [List.nodup_append]
  exact ⟨h1, List.nodup_singleton a, by simp [List.disjoint_singleton, h2]⟩

theorem res_snd_inj (res : List (Str × ℕ)) (E1 E2 : Str) (g1 g2 : ℕ)
    (h1 : dlookup res E1 = some g1) (h2 : dlookup res E2 = some g2)
    (hnd : (res.map Prod.snd).Nodup) (hne : E1 ≠ E2) : g1 ≠ g2 := by
  intro hg
  subst hg
  have m1 := dlookup_mem _ _ _ h1
  have m2 := dlookup_mem _ _ _ h2
  have := List.inj_on_of_nodup_map hnd m1 m2 rfl
  exact hne (congrArg Prod.fst this)

theorem res_lt_of_lookup (st : CState) (E : Str) (g : ℕ)
    (hR2 : st.res_eans.map Prod.snd = List.range st.groups.length)
    (h : dlookup st.res_eans E = some g) : g < st.groups.length := by
  have hm := dlookup_mem _ _ _ h
  have : g ∈ st.res_eans.map Prod.snd := List.mem_map.mpr ⟨(E, g), hm, rfl⟩
  rw [hR2] at this
  exact List.mem_range.mp this

theorem eanHolders_snoc_ne (P : Sources) (sour : Str) (D : List (Str × Item))
    (E2 E : Str) (ni : Item) (hne : E2 ≠ E) :
    eanHolders (P ++ [(sour, D ++ [(E, ni)])]) E2 = eanHolders (P ++ [(sour, D)]) E2 := by
  rw [eanHolders_append, eanHolders_append]
  have : dlookup (D ++ [(E, ni)]) E2 = dlookup D E2 := dlookup_snoc_ne _ _ _ _ hne
  rw [this]

theorem eanHolders_snoc_self (P : Sources) (sour : Str) (D : List (Str × Item))
    (E : Str) (ni : Item) (hD : dlookup D E = none) :
    eanHolders (P ++ [(sour, D ++ [(E, ni)])]) E =
      eanHolders (P ++ [(sour, D)]) E ++ [ni] := by
  rw [eanHolders_append, eanHolders_append]
  have h1 : dlookup (D ++ [(E, ni)]) E = some ni := dlookup_snoc_self _ _ _ hD
  rw [h1, hD]
  simp

theorem isHolder_snoc (P : Sources) (sour : Str) (D : List (Str × Item))
    (E : Str) (ni : Item) (s2 E2 : Str) (hne : ¬(s2 = sour ∧ E2 = E)) :
    isHolder (P ++ [(sour, D ++ [(E, ni)])]) s2 E2 = isHolder (P ++ [(sour, D)]) s2 E2 := by
  rw [isHolder_append, isHolder_append]
  by_cases hs : sour = s2
  · have hE2 : E2 ≠ E := fun he => hne ⟨hs.symm, he⟩
    have : dlookup (D ++ [(E, ni)]) E2 = dlookup D E2 := dlookup_snoc_ne _ _ _ _ hE2
    simp [this]
  · simp [hs]

theorem isHolder_snoc_self (P : Sources) (sour : Str) (D : List (Str × Item))
    (E : Str) (ni : Item) (hD : dlookup D E = none) :
    isHolder (P ++ [(sour, D ++ [(E, ni)])]) sour E = true := by
  apply isHolder_of_mem _ (sour, D ++ [(E, ni)]) _ _ (by simp) rfl
  rw [dlookup_snoc_self _ _ _ hD]
  rfl

theorem phase1_extend_empty (P : Sources) (sour : Str) (st : CState)
    (h : Phase1Inv P st) : Phase1Inv (P ++ [(sour, [])]) st := by
  obtain ⟨R1, R2, R3, R4, R5, R6, R7⟩ := h
  have hh : ∀ E, eanHolders (P ++ [(sour, [])]) E = eanHolders P E := by
    intro E
    rw [eanHolders_append]
    simp [dlookup]
  have hi : ∀ s E, isHolder (P ++ [(sour, [])]) s E = isHolder P s E := by
    intro s E
    rw [isHolder_append]
    simp [dlookup]
  refine ⟨R1, R2, ?_, ?_, ?_, ?_, R7⟩
  · intro E g h2
    rw [hh]
    exact R3 _ _ h2
  · intro E g h2
    rw [hh]
    exact R4 _ _ h2
  · intro E h2
    rw [hh]
    exact R5 _ h2
  · intro s E
    rw [hi]
    exact R6 s E

theorem eanStep_inv (P : Sources) (sour : Str) (D : List (Str × Item)) (E : Str) (ni : Item)
    (st : CState)
    (hinv : Phase1Inv (P ++ [(sour, D)]) st)
    (hsour : sour ∉ P.map Prod.fst)
    (hD : dlookup D E = none)
    (hes : st.ean_sources = P)
    (hwfP : ∀ p ∈ P, ∀ q ∈ p.2, q.2.source_name = p.1 ∧ q.2.ean_code = some q.1)
    (hni1 : ni.source_name = sour) (hni2 : ni.ean_code = some E) :
    (eanStep st (E, ni)).ean_sources = P ∧
    Phase1Inv (P ++ [(sour, D ++ [(E, ni)])]) (eanStep st (E, ni)) := by
  obtain ⟨R1, R2, R3, R4, R5, R6, R7⟩ := hinv
  have hkey : itemKey ni = (sour, some E) := by rw [itemKey, hni1, hni2]
  unfold eanStep
  cases hre : dlookup st.res_eans E with
  | some g =>
    simp only []
    have hglt : g < st.groups.length := res_lt_of_lookup st E g R2 hre
    refine ⟨hes, R1, ?_, ?_, ?_, ?_, ?_, ?_⟩
    · simpa [List.length_set] using R2
    · intro E2 g2 h2
      by_cases hE2 : E2 = E
      · subst hE2
        rw [hre] at h2
        have hgg : g2 = g := (Option.some.inj h2).symm
        rw [hgg, gget_set_self _ _ _ hglt, R3 E2 g hre,
          eanHolders_snoc_self P sour D E2 ni hD]
      · have hgne : g2 ≠ g :=
          res_snd_inj _ E2 E g2 g h2 hre (R2 ▸ List.nodup_range _) hE2
        rw [gget_set_ne _ _ _ _ hgne, R3 E2 g2 h2,
          eanHolders_snoc_ne P sour D E2 E ni hE2]
    · intro E2 g2 h2
      by_cases hE2 : E2 = E
      · subst hE2
        rw [eanHolders_snoc_self P sour D E2 ni hD, List.length_append]
        have := R4 E2 g hre
        omega
      · rw [eanHolders_snoc_ne P sour D E2 E ni hE2]
        exact R4 _ _ h2
    · intro E2 h2
      have hE2 : E2 ≠ E := by
        intro he
        subst he
        rw [hre] at h2
        simp at h2
      rw [eanHolders_snoc_ne P sour D E2 E ni hE2]
      exact R5 _ h2
    · intro s2 E2
      rw [hkey]
      by_cases hk : ((s2, some E2) : ItemKey) = ((sour, some E) : ItemKey)
      · obtain ⟨hs2, hE2⟩ := Prod.mk.inj hk
        obtain hE2 := Option.some.inj hE2
        subst hs2
        subst hE2
        rw [dlookup_dictInsert_self, isHolder_snoc_self P s2 D E2 ni hD, hre]
        simp
      · rw [dlookup_dictInsert_ne _ _ _ _ hk, R6 s2 E2]
        have hne2 : ¬(s2 = sour ∧ E2 = E) := by
          intro ⟨ha, hb⟩
          exact hk (by rw [ha, hb])
        rw [isHolder_snoc P sour D E ni s2 E2 hne2]
    · intro s
      rw [hkey, dlookup_dictInsert_ne _ _ _ _ (by simp)]
      exact R7 s
  | none =>
    cases hfs : st.ean_sources.findSome? (fun q => dlookup q.2 E) with
    | some it0 =>
      simp only []
      rw [hes] at hfs
      obtain ⟨p0, hp0, hit0⟩ := findSome?_exists _ _ _ hfs
      have hwf0 := hwfP p0 hp0 (E, it0) (dlookup_mem _ _ _ hit0)
      have hkey0 : itemKey it0 = (p0.1, some E) := by
        rw [itemKey, hwf0.1, hwf0.2]
      have hs0ne : p0.1 ≠ sour := by
        intro h
        apply hsour
        rw [← h]
        exact List.mem_map.mpr ⟨p0, hp0, rfl⟩
      have hQE : eanHolders (P ++ [(sour, D)]) E = [it0] := by
        apply eq_singleton_of_mem_len_le _ _ ?_ (R5 E hre)
        rw [eanHolders_append, hD]
        simp only [Option.toList_none, List.append_nil]
        exact mem_eanHolders P p0 E it0 hp0 hit0
      have hEnk : E ∉ st.res_eans.map Prod.fst := (dlookup_eq_none _ _).mp hre
      refine ⟨hes, ?_, ?_, ?_, ?_, ?_, ?_, ?_⟩
      · rw [List.map_append]
        exact nodup_snoc _ _ R1 (by simpa using hEnk)
      · rw [List.map_append, List.length_append]
        simp only [List.map_cons, List.map_nil, List.length_cons, List.length_nil]
        rw [R2, List.range_succ]
      · intro E2 g2 h2
        by_cases hE2 : E2 = E
        · subst hE2
          rw [dlookup_snoc_self _ _ _ hre] at h2
          obtain rfl : g2 = st.groups.length := (Option.some.inj h2).symm
          rw [gget_append_self, eanHolders_snoc_self P sour D E2 ni hD, hQE]
          rfl
        · rw [dlookup_snoc_ne _ _ _ _ hE2] at h2
          have hlt := res_lt_of_lookup st E2 g2 R2 h2
          rw [gget_append_lt _ _ _ hlt, R3 _ _ h2,
            eanHolders_snoc_ne P sour D E2 E ni hE2]
      · intro E2 g2 h2
        by_cases hE2 : E2 = E
        · subst hE2
          rw [eanHolders_snoc_self P sour D E2 ni hD, hQE]
          simp
        · rw [dlookup_snoc_ne _ _ _ _ hE2] at h2
          rw [eanHolders_snoc_ne P sour D E2 E ni hE2]
          exact R4 _ _ h2
      · intro E2 h2
        have hE2 : E2 ≠ E := by
          intro he
          subst he
          rw [dlookup_snoc_self _ _ _ hre] at h2
          simp at h2
        rw [dlookup_snoc_ne _ _ _ _ hE2] at h2
        rw [eanHolders_snoc_ne P sour D E2 E ni hE2]
        exact R5 _ h2
      · intro s2 E2
        rw [hkey, hkey0]
        by_cases hk1 : ((s2, some E2) : ItemKey) = ((sour, some E) : ItemKey)
        · obtain ⟨hs2, hE2⟩ := Prod.mk.inj hk1
          obtain hE2 := Option.some.inj hE2
          subst hs2
          subst hE2
          rw [dlookup_dictInsert_self, isHolder_snoc_self P s2 D E2 ni hD,
            dlookup_snoc_self _ _ _ hre]
          simp
        · rw [dlookup_dictInsert_ne _ _ _ _ hk1]
          by_cases hk2 : ((s2, some E2) : ItemKey) = ((p0.1, some E) : ItemKey)
          · obtain ⟨hs2, hE2o⟩ := Prod.mk.inj hk2
            have hE2 := Option.some.inj hE2o
            rw [hs2, hE2, dlookup_dictInsert_self]
            have hH : isHolder (P ++ [(sour, D ++ [(E, ni)])]) p0.1 E = true := by
              apply isHolder_of_mem _ p0 _ _ (List.mem_append_left _ hp0) rfl
              rw [hit0]
              rfl
            rw [hH, dlookup_snoc_self _ _ _ hre]
            simp
          · rw [dlookup_dictInsert_ne _ _ _ _ hk2, R6 s2 E2]
            by_cases hE2 : E2 = E
            · subst hE2
              have hs2sour : s2 ≠ sour := by
                intro h
                exact hk1 (by rw [h])
              have hs2p0 : s2 ≠ p0.1 := by
                intro h
                exact hk2 (by rw [h])
              have hH : isHolder (P ++ [(sour, D ++ [(E2, ni)])]) s2 E2 = false := by
                by_contra hcon
                rw [Bool.not_eq_false] at hcon
                obtain ⟨p, hp, hps, hpE⟩ := exists_of_isHolder _ _ _ hcon
                rcases List.mem_append.mp hp with hpP | hpLast
                · have h2 := two_eanHolders P E2 p p0 hpP hp0
                    (by rw [hps]; exact hs2p0) hpE (by rw [hit0]; rfl)
                  have h3 : eanHolders P E2 = [it0] := by
                    have h4 : eanHolders (P ++ [(sour, D)]) E2 = eanHolders P E2 := by
                      rw [eanHolders_append, hD]
                      simp
                    rw [← h4, hQE]
                  rw [h3] at h2
                  simp at h2
                · have : p = (sour, D ++ [(E2, ni)]) := by simpa using hpLast
                  rw [this] at hps
                  exact hs2sour (by rw [← hps])
              rw [hH, hre]
              simp
            · have hne2 : ¬(s2 = sour ∧ E2 = E) := fun ⟨_, hb⟩ => hE2 hb
              rw [isHolder_snoc P sour D E ni s2 E2 hne2,
                dlookup_snoc_ne _ _ _ _ hE2]
      · intro s
        rw [hkey, hkey0, dlookup_dictInsert_ne _ _ _ _ (by simp),
          dlookup_dictInsert_ne _ _ _ _ (by simp)]
        exact R7 s
    | none =>
      simp only []
      rw [hes] at hfs
      have hnone := findSome?_none _ _ hfs
      have hPE : eanHolders P E = [] := by
        unfold eanHolders
        rw [List.filterMap_eq_nil]
        exact hnone
      have hQE : eanHolders (P ++ [(sour, D)]) E = [] := by
        rw [eanHolders_append, hPE, hD]
        simp
      refine ⟨hes, R1, R2, ?_, ?_, ?_, ?_, R7⟩
      · intro E2 g2 h2
        have hE2 : E2 ≠ E := by
          intro he
          subst he
          rw [hre] at h2
          simp at h2
        rw [eanHolders_snoc_ne P sour D E2 E ni hE2]
        exact R3 _ _ h2
      · intro E2 g2 h2
        have hE2 : E2 ≠ E := by
          intro he
          subst he
          rw [hre] at h2
          simp at h2
        rw [eanHolders_snoc_ne P sour D E2 E ni hE2]
        exact R4 _ _ h2
      · intro E2 h2
        by_cases hE2 : E2 = E
        · subst hE2
          rw [eanHolders_snoc_self P sour D E2 ni hD, hQE]
          simp
        · rw [eanHolders_snoc_ne P sour D E2 E ni hE2]
          exact R5 _ h2
      · intro s2 E2
        rw [R6 s2 E2]
        by_cases hE2 : E2 = E
        · subst hE2
          rw [hre]
          simp
        · have hne2 : ¬(s2 = sour ∧ E2 = E) := fun ⟨_, hb⟩ => hE2 hb
          rw [isHolder_snoc P sour D E ni s2 E2 hne2]

theorem ean_fold_inv (P : Sources) (sour : Str)
    (hsour : sour ∉ P.map Prod.fst)
    (hwfP : ∀ p ∈ P, ∀ q ∈ p.2, q.2.source_name = p.1 ∧ q.2.ean_code = some q.1) :
    ∀ (rest D : List (Str × Item)) (st : CState),
    ((D ++ rest).map Prod.fst).Nodup →
    (∀ q ∈ rest, q.2.source_name = sour ∧ q.2.ean_code = some q.1) →
    st.ean_sources = P →
    Phase1Inv (P ++ [(sour, D)]) st →
    (rest.foldl eanStep st).ean_sources = P ∧
    Phase1Inv (P ++ [(sour, D ++ rest)]) (rest.foldl eanStep st) := by
  intro rest
  induction rest with
  | nil =>
    intro D st _ _ hes hinv
    constructor
    · simpa using hes
    · simpa using hinv
  | cons q rest ih =>
    intro D st hnd hwfq hes hinv
    obtain ⟨hq1, hq2⟩ := hwfq q (by simp)
    have hD : dlookup D q.1 = none := by
      rw [dlookup_eq_none]
      intro hmem
      rw [List.map_append] at hnd
      have := (List.nodup_append.mp hnd).2.2
      exact this hmem (List.mem_map_of_mem _ (List.mem_cons_self _ _))
    have hstep := eanStep_inv P sour D q.1 q.2 st hinv hsour hD hes hwfP hq1 hq2
    have hq : (q.1, q.2) = q := rfl
    rw [hq] at hstep
    have hmain := ih (D ++ [q]) (eanStep st q)
      (by simpa using hnd)
      (fun r hr => hwfq r (by simp [hr]))
      hstep.1 hstep.2
    simp only [List.foldl_cons]
    constructor
    · exact hmain.1
    · have : D ++ q :: rest = (D ++ [q]) ++ rest := by simp
      rw [this]
      exact hmain.2

theorem phase1_init : Phase1Inv [] CState.init := by
  refine ⟨?_, ?_, ?_, ?_, ?_, ?_, ?_⟩
  · simp [CState.init]
  · simp [CState.init, List.range_zero]
  · intro E g h
    simp [CState.init, dlookup] at h
  · intro E g h
    simp [CState.init, dlookup] at h
  · intro E h
    simp [eanHolders]
  · intro s E
    simp [CState.init, dlookup, isHolder]
  · intro s
    simp [CState.init, dlookup]

theorem combine_fold_inv (S : Sources) :
    ∀ (P : Sources) (st : CState),
    SourcesWF (P ++ S) →
    st.ean_sources = P →
    Phase1Inv P st →
    ((S.foldl (fun st2 p => append_by_ean p.1 p.2 st2) st).ean_sources = P ++ S) ∧
    Phase1Inv (P ++ S) (S.foldl (fun st2 p => append_by_ean p.1 p.2 st2) st) := by
  induction S with
  | nil =>
    intro P st _ hes hinv
    constructor
    · simpa using hes
    · simpa using hinv
  | cons p S ih =>
    intro P st hwf hes hinv
    have hsour : p.1 ∉ P.map Prod.fst := by
      have hnd := hwf.1
      rw [List.map_append] at hnd
      have h2 := (List.nodup_append.mp hnd).2.2
      intro hmem
      exact h2 hmem (List.mem_map_of_mem _ (List.mem_cons_self _ _))
    have hwfP : ∀ r ∈ P, ∀ q ∈ r.2, q.2.source_name = r.1 ∧ q.2.ean_code = some q.1 := by
      intro r hr q hq
      exact (hwf.2 r (List.mem_append_left _ hr)).2 q hq
    have hwfp : ∀ q ∈ p.2, q.2.source_name = p.1 ∧ q.2.ean_code = some q.1 := by
      intro q hq
      exact (hwf.2 p (by simp)).2 q hq
    have hndp : (p.2.map Prod.fst).Nodup := (hwf.2 p (by simp)).1
    have hfold := ean_fold_inv P p.1 hsour hwfP p.2 [] st (by simpa using hndp)
      hwfp hes (phase1_extend_empty P p.1 st hinv)
    have hes1 : (append_by_ean p.1 p.2 st).ean_sources = P ++ [(p.1, p.2)] := by
      show (List.foldl eanStep st p.2).ean_sources ++ [(p.1, p.2)] = P ++ [(p.1, p.2)]
      rw [hfold.1]
    have hinv1 : Phase1Inv (P ++ [(p.1, p.2)]) (append_by_ean p.1 p.2 st) := by
      have h2 := hfold.2
      rw [List.nil_append] at h2
      exact h2
    have hlist : (P ++ [(p.1, p.2)]) ++ S = P ++ p :: S := by simp
    have hwf2 : SourcesWF ((P ++ [(p.1, p.2)]) ++ S) := by
      rw [hlist]
      exact hwf
    have hmain := ih (P ++ [(p.1, p.2)]) (append_by_ean p.1 p.2 st) hwf2 hes1 hinv1
    simp only [List.foldl_cons]
    rw [← hlist]
    exact hmain

theorem combine_by_ean_inv (S : Sources) (hwf : SourcesWF S) :
    (combine_by_ean S).ean_sources = S ∧ Phase1Inv S (combine_by_ean S) := by
  have := combine_fold_inv S [] CState.init (by simpa using hwf) rfl phase1_init
  simpa using this

theorem SourcesWF_perm (S T : Sources) (hperm : S.Perm T) (hwf : SourcesWF S) :
    SourcesWF T := by
  obtain ⟨h1, h2⟩ := hwf
  constructor
  · exact (hperm.map Prod.fst).nodup_iff.mp h1
  · intro p hp
    exact h2 p (hperm.mem_iff.mpr hp)

/-- C1: after the exact matcher has processed every source, any two items of
two different sources that share a code key end up bound to the same match
group, and this holds for every permutation of the source processing order
(the scan over previously combined sources guarantees the pairing whichever
source comes first). -/
theorem C1_code_match_same_group (S T : Sources) (hwf : SourcesWF S) (hperm : S.Perm T)
    (s1 s2 E : Str) (m1 m2 : List (Str × Item)) (i j : Item)
    (h1 : (s1, m1) ∈ T) (h2 : (s2, m2) ∈ T) (hne : s1 ≠ s2)
    (hi : dlookup m1 E = some i) (hj : dlookup m2 E = some j) :
    ∃ g, dlookup (combine_by_ean T).binds (itemKey i) = some g ∧
      dlookup (combine_by_ean T).binds (itemKey j) = some g := by
  have hwfT := SourcesWF_perm S T hperm hwf
  obtain ⟨_, hinv⟩ := combine_by_ean_inv T hwfT
  obtain ⟨_, R2, _, _, R5, R6, _⟩ := hinv
  have htwo : 2 ≤ (eanHolders T E).length :=
    two_eanHolders T E (s1, m1) (s2, m2) h1 h2 (by simpa using hne)
      (by rw [hi]; rfl) (by rw [hj]; rfl)
  have hres : ∃ g, dlookup (combine_by_ean T).res_eans E = some g := by
    cases hre : dlookup (combine_by_ean T).res_eans E with
    | none =>
      have := R5 E hre
      omega
    | some g => exact ⟨g, rfl⟩
  obtain ⟨g, hg⟩ := hres
  have hwf1 := (hwfT.2 (s1, m1) h1).2 (E, i) (dlookup_mem _ _ _ hi)
  have hwf2 := (hwfT.2 (s2, m2) h2).2 (E, j) (dlookup_mem _ _ _ hj)
  have hkey1 : itemKey i = (s1, some E) := by rw [itemKey, hwf1.1, hwf1.2]
  have hkey2 : itemKey j = (s2, some E) := by rw [itemKey, hwf2.1, hwf2.2]
  refine ⟨g, ?_, ?_⟩
  · rw [hkey1, R6 s1 E,
      isHolder_of_mem T (s1, m1) s1 E h1 rfl (by rw [hi]; rfl), hg]
    simp
  · rw [hkey2, R6 s2 E,
      isHolder_of_mem T (s2, m2) s2 E h2 rfl (by rw [hj]; rfl), hg]
    simp

theorem C1_witness :
    SourcesWF sourcesW ∧
    ∃ g, dlookup (combine_by_ean sourcesWrev).binds (itemKey itWA) = some g ∧
      dlookup (combine_by_ean sourcesWrev).binds (itemKey itWB) = some g :=
  ⟨by decide,
    C1_code_match_same_group sourcesW sourcesWrev (by decide)
      (List.Perm.swap _ _ _)
      ("a".toList) ("b".toList) ("e".toList)
      [("e".toList, itWA)] [("e".toList, itWB)] itWA itWB
      (by decide) (by decide) (by decide) (by decide) (by decide)⟩

/- ------------------------------------------------------------------ -/
/- From the exact-matcher invariant to the run-wide invariant.        -/
/- ------------------------------------------------------------------ -/

theorem eanHolders_source_names (S : Sources) (E : Str) (it : Item)
    (hwf : ∀ p ∈ S, ∀ q ∈ p.2, q.2.source_name = p.1)
    (h : it ∈ eanHolders S E) : it.source_name ∈ S.map Prod.fst := by
  obtain ⟨p, hp, hlook⟩ := eanHolders_sources S E it h
  have := hwf p hp (E, it) (dlookup_mem _ _ _ hlook)
  rw [this]
  exact List.mem_map.mpr ⟨p, hp, rfl⟩

theorem eanHolders_nodup_sources (S : Sources) (E : Str)
    (hnd : (S.map Prod.fst).Nodup)
    (hwf : ∀ p ∈ S, ∀ q ∈ p.2, q.2.source_name = p.1) :
    ((eanHolders S E).map Item.source_name).Nodup := by
  induction S with
  | nil => simp [eanHolders]
  | cons r rs ih =>
    rw [eanHolders_cons]
    simp only [List.map_cons, List.nodup_cons] at hnd
    have ihr := ih hnd.2 (fun p hp q hq => hwf p (List.mem_cons_of_mem _ hp) q hq)
    cases hlook : dlookup r.2 E with
    | none => simpa using ihr
    | some it =>
      simp only [Option.toList_some, List.singleton_append, List.map_cons, List.nodup_cons]
      refine ⟨?_, ihr⟩
      intro hmem
      rw [List.mem_map] at hmem
      obtain ⟨it2, hit2, hsrc⟩ := hmem
      have h1 : it.source_name = r.1 := hwf r (by simp) (E, it) (dlookup_mem _ _ _ hlook)
      have h2 := eanHolders_source_names rs E it2
        (fun p hp q hq => hwf p (List.mem_cons_of_mem _ hp) q hq) hit2
      rw [hsrc, h1] at h2
      exact hnd.1 h2

theorem sources_item_key (S : Sources) (hwf : SourcesWF S) (p : Str × List (Str × Item))
    (hp : p ∈ S) (E : Str) (it : Item) (h : dlookup p.2 E = some it) :
    itemKey it = (p.1, some E) := by
  have hw := (hwf.2 p hp).2 (E, it) (dlookup_mem _ _ _ h)
  rw [itemKey, hw.1, hw.2]

theorem exists_res_of_lt (st : CState) (g : ℕ)
    (R1 : (st.res_eans.map Prod.fst).Nodup)
    (R2 : st.res_eans.map Prod.snd = List.range st.groups.length)
    (hg : g < st.groups.length) : ∃ E, dlookup st.res_eans E = some g := by
  have hmem : g ∈ st.res_eans.map Prod.snd := by
    rw [R2]
    exact List.mem_range.mpr hg
  rw [List.mem_map] at hmem
  obtain ⟨e, he, hsnd⟩ := hmem
  refine ⟨e.1, ?_⟩
  have : e = (e.1, g) := by
    cases e
    simp_all
  rw [this] at he
  exact mem_dlookup _ _ _ he R1

theorem phase1_aliasInv (S : Sources) (st : CState) (hwf : SourcesWF S)
    (hinv : Phase1Inv S st) : AliasInv S st := by
  obtain ⟨R1, R2, R3, R4, R5, R6, R7⟩ := hinv
  have hwfs : ∀ p ∈ S, ∀ q ∈ p.2, q.2.source_name = p.1 :=
    fun p hp q hq => ((hwf.2 p hp).2 q hq).1
  refine ⟨?_, ?_, ?_⟩
  · intro g
    by_cases hg : g < st.groups.length
    · obtain ⟨E, hE⟩ := exists_res_of_lt st g R1 R2 hg
      rw [R3 _ _ hE]
      exact eanHolders_nodup_sources S E hwf.1 hwfs
    · rw [gget_eq_nil_of_le _ _ (by omega)]
      simp
  · intro k g hk
    cases k with
    | mk s o =>
      cases o with
      | none =>
        rw [R7 s] at hk
        simp at hk
      | some E =>
        rw [R6 s E] at hk
        by_cases hH : isHolder S s E = true
        · rw [if_pos hH] at hk
          obtain ⟨p, hp, hps, hpE⟩ := exists_of_isHolder _ _ _ hH
          obtain ⟨it, hit⟩ := Option.isSome_iff_exists.mp hpE
          refine ⟨it, ?_, ?_⟩
          · rw [R3 _ _ hk]
            exact mem_eanHolders S p E it hp hit
          · rw [sources_item_key S hwf p hp E it hit, hps]
        · rw [if_neg hH] at hk
          simp at hk
  · intro g it hit
    have hg : g < st.groups.length := lt_of_mem_gget _ _ _ hit
    obtain ⟨E, hE⟩ := exists_res_of_lt st g R1 R2 hg
    rw [R3 _ _ hE] at hit
    obtain ⟨p, hp, hlook⟩ := eanHolders_sources S E it hit
    exact ⟨p, hp, (E, it), dlookup_mem _ _ _ hlook, rfl⟩

theorem phase1_member_bind (S : Sources) (st : CState) (hwf : SourcesWF S)
    (hinv : Phase1Inv S st) :
    ∀ g it, it ∈ gget st.groups g → dlookup st.binds (itemKey it) = some g := by
  obtain ⟨R1, R2, R3, R4, R5, R6, R7⟩ := hinv
  intro g it hit
  have hg : g < st.groups.length := lt_of_mem_gget _ _ _ hit
  obtain ⟨E, hE⟩ := exists_res_of_lt st g R1 R2 hg
  rw [R3 _ _ hE] at hit
  obtain ⟨p, hp, hlook⟩ := eanHolders_sources S E it hit
  rw [sources_item_key S hwf p hp E it hlook, R6 p.1 E,
    isHolder_of_mem S p p.1 E hp rfl (by rw [hlook]; rfl), hE]
  simp

/- ------------------------------------------------------------------ -/
/- The alias matcher preserves the run-wide invariant.                -/
/- ------------------------------------------------------------------ -/

theorem not_bound_yet_src (st : CState) (sour : Str) (it : Item)
    (h : not_bound_yet st sour it = true) : it.source_name ≠ sour := by
  unfold not_bound_yet at h
  intro hs
  rw [if_pos hs] at h
  simp at h

theorem not_bound_yet_group (st : CState) (sour : Str) (it : Item) (g : ℕ)
    (h : not_bound_yet st sour it = true)
    (hb : dlookup st.binds (itemKey it) = some g) :
    ∀ m ∈ gget st.groups g, m.source_name ≠ sour := by
  have hsrc := not_bound_yet_src st sour it h
  unfold not_bound_yet at h
  rw [if_neg hsrc] at h
  simp only [hb] at h
  rw [Bool.not_eq_eq_eq_not, Bool.not_true, List.any_eq_false] at h
  intro m hm
  have := h m hm
  simpa using this

theorem eligible_spec (st : CState) (rbi : List (Str × List Item)) (sour : Str)
    (ni it : Item) (h : it ∈ eligible st rbi sour ni) :
    it.wm = ni.wm ∧ not_bound_yet st sour it = true ∧
      it ∈ (dlookup rbi ni.brand).getD [] := by
  unfold eligible at h
  have h2 := List.mem_filter.mp h
  have h3 := h2.2
  rw [Bool.and_eq_true] at h3
  exact ⟨of_decide_eq_true h3.1, h3.2, h2.1⟩

theorem eligible_sources (S : Sources) (st : CState) (rbi : List (Str × List Item))
    (sour : Str) (ni it : Item) (hrbi : RbiWF S rbi)
    (h : it ∈ eligible st rbi sour ni) : ItemsOfSources S it := by
  have h3 := (eligible_spec st rbi sour ni it h).2.2
  cases hlook : dlookup rbi ni.brand with
  | none =>
    rw [hlook] at h3
    simp at h3
  | some bl =>
    rw [hlook] at h3
    simp only [Option.getD_some] at h3
    exact hrbi (ni.brand, bl) (dlookup_mem _ _ _ hlook) it h3

theorem aliasStep_inv (S : Sources) (score : Str → Str → ℕ) (thresh : ℕ)
    (rbi : List (Str × List Item)) (sour : Str) (st : CState) (res_arr : List ℕ)
    (ni : Item) (hrbi : RbiWF S rbi) (hinv : AliasInv S st)
    (hni : ItemsOfSources S ni) (hnis : ni.source_name = sour) :
    AliasInv S (aliasStep score thresh rbi sour (st, res_arr) ni).1 := by
  obtain ⟨A1, A2, A4⟩ := hinv
  unfold aliasStep
  dsimp only
  cases hb : dlookup st.binds (itemKey ni) with
  | some g => exact ⟨A1, A2, A4⟩
  | none =>
    dsimp only
    cases hext : extractOne (fun a => score ni.aliasStr a)
        ((eligible st rbi sour ni).map Item.aliasStr) with
    | none => exact ⟨A1, A2, A4⟩
    | some pr =>
      obtain ⟨msa, sc⟩ := pr
      dsimp only
      by_cases hth : thresh ≤ sc
      case neg =>
        rw [if_neg hth]
        exact ⟨A1, A2, A4⟩
      case pos =>
      rw [if_pos hth]
      cases hfind : (eligible st rbi sour ni).find? (fun it => decide (it.aliasStr = msa)) with
      | none => exact ⟨A1, A2, A4⟩
      | some item =>
        have hitem_mem : item ∈ eligible st rbi sour ni := List.mem_of_find?_eq_some hfind
        obtain ⟨hwm, hnb, _⟩ := eligible_spec st rbi sour ni item hitem_mem
        have hsrc_ne : item.source_name ≠ sour := not_bound_yet_src st sour item hnb
        have hitemS : ItemsOfSources S item := eligible_sources S st rbi sour ni item hrbi hitem_mem
        cases hbitem : dlookup st.binds (itemKey item) with
        | some g =>
          simp only [hbitem]
          obtain ⟨itg, hitg, _⟩ := A2 _ _ hbitem
          have hglt : g < st.groups.length := lt_of_mem_gget _ _ _ hitg
          have hnosour : ∀ m ∈ gget st.groups g, m.source_name ≠ sour :=
            not_bound_yet_group st sour item g hnb hbitem
          refine ⟨?_, ?_, ?_⟩
          · intro g2
            by_cases hg2 : g2 = g
            · subst hg2
              rw [gget_set_self _ _ _ hglt, List.map_append]
              refine nodup_snoc _ _ (A1 g2) ?_
              intro hmem
              rw [List.mem_map] at hmem
              obtain ⟨m, hm, hms⟩ := hmem
              rw [hnis] at hms
              exact hnosour m hm hms
            · rw [gget_set_ne _ _ _ _ hg2]
              exact A1 g2
          · intro k g2 hk2
            obtain ⟨it2, hm2, hkey2⟩ := A2 _ _ hk2
            by_cases hg2 : g2 = g
            · subst hg2
              exact ⟨it2, by rw [gget_set_self _ _ _ hglt]; exact List.mem_append_left _ hm2, hkey2⟩
            · exact ⟨it2, by rw [gget_set_ne _ _ _ _ hg2]; exact hm2, hkey2⟩
          · intro g2 it2 hit2
            by_cases hg2 : g2 = g
            · subst hg2
              rw [gget_set_self _ _ _ hglt] at hit2
              rcases List.mem_append.mp hit2 with h2 | h2
              · exact A4 g2 it2 h2
              · have h3 : it2 = ni := by simpa using h2
                rw [h3]
                exact hni
            · rw [gget_set_ne _ _ _ _ hg2] at hit2
              exact A4 g2 it2 hit2
        | none =>
          simp only [hbitem]
          refine ⟨?_, ?_, ?_⟩
          · intro g2
            by_cases hg2 : g2 < st.groups.length
            · rw [gget_append_lt _ _ _ hg2]
              exact A1 g2
            · by_cases hg2L : g2 = st.groups.length
              · subst hg2L
                rw [gget_append_self]
                simp only [List.map_cons, List.map_nil, List.nodup_cons]
                constructor
                · intro hmem
                  simp only [List.mem_cons, List.not_mem_nil, or_false] at hmem
                  rw [hnis] at hmem
                  exact hsrc_ne hmem
                · simp
              · rw [gget_eq_nil_of_le _ _ (by simp; omega)]
                simp
          · intro k g2 hk2
            by_cases hkk : k = itemKey item
            · subst hkk
              rw [dlookup_dictInsert_self] at hk2
              obtain rfl : g2 = st.groups.length := (Option.some.inj hk2).symm
              exact ⟨item, by rw [gget_append_self]; simp, rfl⟩
            · rw [dlookup_dictInsert_ne _ _ _ _ hkk] at hk2
              obtain ⟨it2, hm2, hkey2⟩ := A2 _ _ hk2
              have hg2 : g2 < st.groups.length := lt_of_mem_gget _ _ _ hm2
              exact ⟨it2, by rw [gget_append_lt _ _ _ hg2]; exact hm2, hkey2⟩
          · intro g2 it2 hit2
            by_cases hg2 : g2 < st.groups.length
            · rw [gget_append_lt _ _ _ hg2] at hit2
              exact A4 g2 it2 hit2
            · by_cases hg2L : g2 = st.groups.length
              · subst hg2L
                rw [gget_append_self] at hit2
                simp only [List.mem_cons, List.not_mem_nil, or_false] at hit2
                rcases hit2 with h2 | h2
                · rw [h2]
                  exact hitemS
                · rw [h2]
                  exact hni
              · rw [gget_eq_nil_of_le _ _ (by simp; omega)] at hit2
                simp at hit2

theorem alias_items_fold_inv (S : Sources) (score : Str → Str → ℕ) (thresh : ℕ)
    (rbi : List (Str × List Item)) (sour : Str) (hrbi : RbiWF S rbi) :
    ∀ (items : List (Str × Item)) (acc : CState × List ℕ),
    (∀ q ∈ items, ItemsOfSources S q.2 ∧ q.2.source_name = sour) →
    AliasInv S acc.1 →
    AliasInv S
      ((items.foldl (fun a q => aliasStep score thresh rbi sour a q.2) acc)).1 := by
  intro items
  induction items with
  | nil => exact fun acc _ h => h
  | cons q qs ih =>
    intro acc hq hinv
    simp only [List.foldl_cons]
    have h1 := hq q (by simp)
    have hstep := aliasStep_inv S score thresh rbi sour acc.1 acc.2 q.2 hrbi hinv h1.1 h1.2
    have hacc : (acc.1, acc.2) = acc := rfl
    rw [hacc] at hstep
    exact ih _ (fun r hr => hq r (by simp [hr])) hstep

theorem alias_sources_fold_inv (S : Sources) (score : Str → Str → ℕ) (thresh : ℕ)
    (rbi : List (Str × List Item)) (hwf : SourcesWF S) (hrbi : RbiWF S rbi) :
    ∀ (T : Sources) (acc : CState × List ℕ),
    (∀ p ∈ T, p ∈ S) →
    AliasInv S acc.1 →
    AliasInv S
      ((T.foldl (fun a p => append_by_alias score thresh rbi p.1 p.2 a) acc)).1 := by
  intro T
  induction T with
  | nil => exact fun acc _ h => h
  | cons p ps ih =>
    intro acc hmem hinv
    simp only [List.foldl_cons]
    have hp : p ∈ S := hmem p (by simp)
    have hstep : AliasInv S (append_by_alias score thresh rbi p.1 p.2 acc).1 := by
      apply alias_items_fold_inv S score thresh rbi p.1 hrbi p.2 acc ?_ hinv
      intro q hq
      refine ⟨⟨p, hp, q, hq, rfl⟩, ?_⟩
      exact ((hwf.2 p hp).2 q hq).1
    exact ih _ (fun r hr => hmem r (by simp [hr])) hstep

theorem combine_items_by_alias_inv (S : Sources) (score : Str → Str → ℕ) (thresh : ℕ)
    (rbi : List (Str × List Item)) (st : CState) (hwf : SourcesWF S)
    (hrbi : RbiWF S rbi) (hinv : AliasInv S st) :
    AliasInv S (combine_items_by_alias score thresh S rbi st).1 :=
  alias_sources_fold_inv S score thresh rbi hwf hrbi S (st, []) (fun _ h => h) hinv

/- ------------------------------------------------------------------ -/
/- The brand clusterer only redistributes source items.               -/
/- ------------------------------------------------------------------ -/

theorem bget_eq_nil_of_le (cs : List (List TBrand)) (g : ℕ) (h : cs.length ≤ g) :
    bget cs g = [] := by
  unfold bget
  rw [List.getD_eq_default]
  exact h

theorem bget_set_self (cs : List (List TBrand)) (g : ℕ) (x : List TBrand)
    (h : g < cs.length) : bget (cs.set g x) g = x := by
  unfold bget
  rw [List.getD_eq_getElem _ _ (by simpa using h)]
  simp [List.getElem_set]

theorem bget_set_ne (cs : List (List TBrand)) (g g2 : ℕ) (x : List TBrand)
    (hne : g2 ≠ g) : bget (cs.set g x) g2 = bget cs g2 := by
  unfold bget
  by_cases h2 : g2 < cs.length
  · rw [List.getD_eq_getElem _ _ (by simpa using h2), List.getD_eq_getElem _ _ h2]
    exact List.getElem_set_ne (Ne.symm hne) _
  · rw [List.getD_eq_default _ _ (by simp; omega), List.getD_eq_default _ _ (by omega)]

theorem bget_lt (cs : List (List TBrand)) (g : ℕ) (h : g < cs.length) :
    bget cs g = cs.get ⟨g, h⟩ := by
  unfold bget
  exact List.getD_eq_get _ _ h

theorem bget_append_lt (cs : List (List TBrand)) (x : List TBrand) (g : ℕ)
    (h : g < cs.length) : bget (cs ++ [x]) g = bget cs g := by
  rw [bget_lt _ _ (by simp; omega), bget_lt _ _ h]
  exact (List.get_append g h).symm ▸ rfl

theorem bget_append_self (cs : List (List TBrand)) (x : List TBrand) :
    bget (cs ++ [x]) cs.length = x := by
  unfold bget
  rw [List.getD_eq_getElem _ _ (by simp)]
  simp

/- All items of all buckets of `group_items_by_brands` come from the given
item dict. -/
theorem mem_dictAppendVal (brands : List (Str × List Item)) (b : Str) (it : Item)
    (x : Str × List Item) (hx : x ∈ dictAppendVal brands b it) (it2 : Item)
    (h2 : it2 ∈ x.2) : (∃ y ∈ brands, it2 ∈ y.2) ∨ it2 = it := by
  induction brands with
  | nil =>
    simp only [dictAppendVal, List.mem_singleton] at hx
    rw [hx] at h2
    simp only [List.mem_singleton] at h2
    exact Or.inr h2
  | cons e t ih =>
    by_cases hb : b = e.1
    · rw [dictAppendVal, if_pos hb] at hx
      rcases List.mem_cons.mp hx with h3 | h3
      · rw [h3] at h2
        simp only [] at h2
        rcases List.mem_append.mp h2 with h4 | h4
        · exact Or.inl ⟨e, by simp, h4⟩
        · simp only [List.mem_singleton] at h4
          exact Or.inr h4
      · exact Or.inl (by
          obtain ⟨y, hy, hit⟩ := (⟨x, h3, h2⟩ : ∃ y ∈ t, it2 ∈ y.2)
          exact ⟨y, List.mem_cons_of_mem _ hy, hit⟩)
    · rw [dictAppendVal, if_neg hb] at hx
      rcases List.mem_cons.mp hx with h3 | h3
      · rw [h3] at h2
        exact Or.inl ⟨e, by simp, h2⟩
      · rcases ih h3 with h4 | h4
        · obtain ⟨y, hy, hit⟩ := h4
          exact Or.inl ⟨y, List.mem_cons_of_mem _ hy, hit⟩
        · exact Or.inr h4

theorem mem_group_items_by_brands (items : List (Str × Item)) (x : Str × List Item)
    (hx : x ∈ group_items_by_brands items) (it : Item) (hit : it ∈ x.2) :
    ∃ q ∈ items, q.2 = it := by
  unfold group_items_by_brands at hx
  have key : ∀ (l : List (Str × Item)) (acc : List (Str × List Item)),
      x ∈ l.foldl (fun brands q => dictAppendVal brands q.2.brand q.2) acc →
      (∃ y ∈ acc, it ∈ y.2) → False ∨ True := fun _ _ _ _ => Or.inr trivial
  clear key
  have main : ∀ (l : List (Str × Item)) (acc : List (Str × List Item)),
      x ∈ l.foldl (fun brands q => dictAppendVal brands q.2.brand q.2) acc →
      it ∈ x.2 →
      (∃ y ∈ acc, it ∈ y.2) ∨ ∃ q ∈ l, q.2 = it := by
    intro l
    induction l with
    | nil =>
      intro acc h hit2
      exact Or.inl ⟨x, h, hit2⟩
    | cons q qs ih =>
      intro acc h hit2
      simp only [List.foldl_cons] at h
      rcases ih _ h hit2 with h2 | h2
      · obtain ⟨y, hy, hity⟩ := h2
        rcases mem_dictAppendVal acc q.2.brand q.2 y hy it hity with h3 | h3
        · obtain ⟨z, hz, hitz⟩ := h3
          exact Or.inl ⟨z, hz, hitz⟩
        · exact Or.inr ⟨q, by simp, h3.symm⟩
      · obtain ⟨r, hr, hrit⟩ := h2
        exact Or.inr ⟨r, by simp [hr], hrit⟩
  rcases main items [] hx hit with h | h
  · obtain ⟨y, hy, _⟩ := h
    simp at hy
  · exact h

theorem clustersOK_append (S : Sources) (cs : List (List TBrand)) (bobj : TBrand)
    (hcl : ∀ g, ∀ bo ∈ bget cs g, ∀ it ∈ bo.items, ItemsOfSources S it)
    (hb : ∀ it ∈ bobj.items, ItemsOfSources S it) :
    ∀ g, ∀ bo ∈ bget (cs ++ [[bobj]]) g, ∀ it ∈ bo.items, ItemsOfSources S it := by
  intro g bo hbo it hit
  by_cases hg : g < cs.length
  · rw [bget_append_lt _ _ _ hg] at hbo
    exact hcl g bo hbo it hit
  · by_cases hgL : g = cs.length
    · subst hgL
      rw [bget_append_self] at hbo
      simp only [List.mem_singleton] at hbo
      rw [hbo] at hit
      exact hb it hit
    · rw [bget_eq_nil_of_le _ _ (by simp; omega)] at hbo
      simp at hbo

theorem clustersOK_set (S : Sources) (cs : List (List TBrand)) (g0 : ℕ) (bobj : TBrand)
    (hcl : ∀ g, ∀ bo ∈ bget cs g, ∀ it ∈ bo.items, ItemsOfSources S it)
    (hb : ∀ it ∈ bobj.items, ItemsOfSources S it) :
    ∀ g, ∀ bo ∈ bget (cs.set g0 (bget cs g0 ++ [bobj])) g, ∀ it ∈ bo.items,
      ItemsOfSources S it := by
  intro g bo hbo it hit
  by_cases hg0 : g0 < cs.length
  · by_cases hg : g = g0
    · subst hg
      rw [bget_set_self _ _ _ hg0] at hbo
      rcases List.mem_append.mp hbo with h2 | h2
      · exact hcl g bo h2 it hit
      · simp only [List.mem_singleton] at h2
        rw [h2] at hit
        exact hb it hit
    · rw [bget_set_ne _ _ _ _ hg] at hbo
      exact hcl g bo hbo it hit
  · rw [List.set_eq_of_length_le (by omega)] at hbo
    exact hcl g bo hbo it hit

theorem brandStep_items (S : Sources) (score : Str → Str → ℕ) (thresh : ℕ) (sour : Str)
    (bst : BState) (p : Str × List Item)
    (hcl : ∀ g, ∀ bo ∈ bget bst.clusters g, ∀ it ∈ bo.items, ItemsOfSources S it)
    (hp : ∀ it ∈ p.2, ItemsOfSources S it) :
    ∀ g, ∀ bo ∈ bget (brandStep score thresh sour bst p).clusters g, ∀ it ∈ bo.items,
      ItemsOfSources S it := by
  have hb : ∀ it ∈ (⟨p.1, sour, p.2⟩ : TBrand).items, ItemsOfSources S it := hp
  unfold brandStep
  cases h1 : dlookup bst.res_brands p.1 with
  | some g0 =>
    simp only [h1]
    exact clustersOK_set S bst.clusters g0 _ hcl hb
  | none =>
    simp only [h1]
    by_cases h2 : bst.res_brands = []
    · rw [if_pos h2]
      exact clustersOK_append S bst.clusters _ hcl hb
    · rw [if_neg h2]
      cases h3 : extractOne (fun b => score p.1 b) (bst.res_brands.map Prod.fst) with
      | none =>
        simp only [h3]
        exact clustersOK_append S bst.clusters _ hcl hb
      | some pr =>
        obtain ⟨msb, sc⟩ := pr
        simp only [h3]
        by_cases h4 : thresh ≤ sc
        · rw [if_pos h4]
          cases h5 : dlookup bst.res_brands msb with
          | some g0 =>
            simp only [h5]
            exact clustersOK_set S bst.clusters g0 _ hcl hb
          | none =>
            simp only [h5]
            exact clustersOK_append S bst.clusters _ hcl hb
        · rw [if_neg h4]
          exact clustersOK_append S bst.clusters _ hcl hb

theorem brand_buckets_fold_items (S : Sources) (score : Str → Str → ℕ) (thresh : ℕ)
    (sour : Str) :
    ∀ (bd : List (Str × List Item)) (bst : BState),
    (∀ q ∈ bd, ∀ it ∈ q.2, ItemsOfSources S it) →
    (∀ g, ∀ bo ∈ bget bst.clusters g, ∀ it ∈ bo.items, ItemsOfSources S it) →
    (∀ g, ∀ bo ∈
        bget ((bd.foldl (fun st2 q => brandStep score thresh sour st2 q) bst)).clusters g,
      ∀ it ∈ bo.items, ItemsOfSources S it) := by
  intro bd
  induction bd with
  | nil => exact fun bst _ h => h
  | cons q qs ih =>
    intro bst hq hcl
    simp only [List.foldl_cons]
    exact ih _ (fun r hr => hq r (by simp [hr]))
      (brandStep_items S score thresh sour bst q hcl (hq q (by simp)))

theorem match_brands_items (S : Sources) (score : Str → Str → ℕ) (thresh : ℕ) :
    ∀ g, ∀ bo ∈ bget (match_brands score (create_brand_sources S) thresh).clusters g,
    ∀ it ∈ bo.items, ItemsOfSources S it := by
  unfold match_brands
  have main : ∀ (L : List (Str × List (Str × List Item))) (bst : BState),
      (∀ r ∈ L, ∀ q ∈ r.2, ∀ it ∈ q.2, ItemsOfSources S it) →
      (∀ g, ∀ bo ∈ bget bst.clusters g, ∀ it ∈ bo.items, ItemsOfSources S it) →
      (∀ g, ∀ bo ∈
          bget ((L.foldl
            (fun st2 r => r.2.foldl (fun st3 q => brandStep score thresh r.1 st3 q) st2)
            bst)).clusters g,
        ∀ it ∈ bo.items, ItemsOfSources S it) := by
    intro L
    induction L with
    | nil => exact fun bst _ h => h
    | cons r rs ih =>
      intro bst hr hcl
      simp only [List.foldl_cons]
      exact ih _ (fun r2 hr2 => hr r2 (by simp [hr2]))
        (brand_buckets_fold_items S score thresh r.1 r.2 bst (hr r (by simp)) hcl)
  apply main
  · intro r hr q hq it hit
    unfold create_brand_sources at hr
    rw [List.mem_map] at hr
    obtain ⟨ps, hps, hre⟩ := hr
    have hq2 : q ∈ group_items_by_brands ps.2 := by
      rw [← hre] at hq
      exact hq
    obtain ⟨e, he, hev⟩ := mem_group_items_by_brands ps.2 q hq2 it hit
    exact ⟨ps, hps, e, he, hev⟩
  · intro g bo hbo
    simp [bget] at hbo

theorem rbi_wf (score : Str → Str → ℕ) (S : Sources) (bt : ℕ) :
    RbiWF S (group_items_by_similar_brands score S bt) := by
  intro b hb it hit
  unfold group_items_by_similar_brands at hb
  rw [List.mem_map] at hb
  obtain ⟨p, hp, hbe⟩ := hb
  have hit2 : it ∈ ((bget (match_brands score (create_brand_sources S) bt).clusters p.2).map
      TBrand.items).flatten := by
    rw [← hbe] at hit
    exact hit
  rw [List.mem_flatten] at hit2
  obtain ⟨l, hl, hitl⟩ := hit2
  rw [List.mem_map] at hl
  obtain ⟨bo, hbo, hbl⟩ := hl
  rw [← hbl] at hitl
  exact match_brands_items S score bt p.2 bo hbo it hitl

/- ------------------------------------------------------------------ -/
/- Claims C2, C3, C5, C9: the run-wide guarantees.                    -/
/- ------------------------------------------------------------------ -/

/-- C2: for every match group produced by the run — whether built by the
exact matcher or by the alias matcher — no two members of the group carry the
same source name (self-matching is prevented), for any well-formed source
map, any scorer and any thresholds. -/
theorem C2_no_self_match (score : Str → Str → ℕ) (bt aT : ℕ) (S : Sources)
    (hwf : SourcesWF S) (g : ℕ) :
    ((gget (runMatch score bt aT S).1.groups g).map Item.source_name).Nodup := by
  have h1 := combine_by_ean_inv S hwf
  have h2 := phase1_aliasInv S (combine_by_ean S) hwf h1.2
  have h3 := combine_items_by_alias_inv S score aT
    (group_items_by_similar_brands score S bt) (combine_by_ean S) hwf
    (rbi_wf score S bt) h2
  exact h3.1 g

theorem C2_witness :
    SourcesWF sourcesW ∧
    ((gget (runMatch (fun _ _ => 0) 95 90 sourcesW).1.groups 0).map
      Item.source_name).Nodup :=
  ⟨by decide, C2_no_self_match (fun _ _ => 0) 95 90 sourcesW (by decide) 0⟩

/-- C3: counterexample to disjointness keyed by the (source, id) pair alone.
One record of source `a` carries the two codes `e1` and `e2`; its two
normalized copies share (source, id) but land in the two distinct code
groups (group 0 with source `b`, group 1 with source `c`), and both groups
are in the final merged list. -/
theorem C3_counterexample :
    (0 : ℕ) ∈ (runMatch (fun _ _ => 0) 95 90 sourcesC3).2 ∧
    (1 : ℕ) ∈ (runMatch (fun _ _ => 0) 95 90 sourcesC3).2 ∧
    (∃ i ∈ gget (runMatch (fun _ _ => 0) 95 90 sourcesC3).1.groups 0,
     ∃ j ∈ gget (runMatch (fun _ _ => 0) 95 90 sourcesC3).1.groups 1,
       i.source_name = j.source_name ∧ i.id = j.id ∧ i.ean_code ≠ j.ean_code) := by
  decide

/-- C3 amended: disjointness holds for the code-based groups — two groups
the exact matcher records in `res_eans` that share a member with the same
(source, id, code) triple are one and the same group, because every member
of a code group carries that group's code key.  For the full merged list the
property fails: the alias matcher never sets the appended member's `'bind'`,
so that member stays eligible and a later source can seed a second group
around it. -/
theorem C3_disjoint_amended (S : Sources) (hwf : SourcesWF S) (E1 E2 : Str)
    (g1 g2 : ℕ) (i j : Item)
    (h1 : dlookup (combine_by_ean S).res_eans E1 = some g1)
    (h2 : dlookup (combine_by_ean S).res_eans E2 = some g2)
    (hi : i ∈ gget (combine_by_ean S).groups g1)
    (hj : j ∈ gget (combine_by_ean S).groups g2)
    (_hs : i.source_name = j.source_name) (hc : i.ean_code = j.ean_code)
    (_hid : i.id = j.id) : g1 = g2 := by
  obtain ⟨_, hinv⟩ := combine_by_ean_inv S hwf
  obtain ⟨R1, R2, R3, R4, R5, R6, R7⟩ := hinv
  rw [R3 _ _ h1] at hi
  rw [R3 _ _ h2] at hj
  obtain ⟨p, hp, hlooki⟩ := eanHolders_sources S E1 i hi
  obtain ⟨q, hq, hlookj⟩ := eanHolders_sources S E2 j hj
  have hie : i.ean_code = some E1 :=
    ((hwf.2 p hp).2 (E1, i) (dlookup_mem _ _ _ hlooki)).2
  have hje : j.ean_code = some E2 :=
    ((hwf.2 q hq).2 (E2, j) (dlookup_mem _ _ _ hlookj)).2
  have hE : E1 = E2 := by
    rw [hie, hje] at hc
    exact Option.some.inj hc
  rw [hE] at h1
  rw [h1] at h2
  exact Option.some.inj h2

theorem C3_witness :
    SourcesWF sourcesW ∧
    dlookup (combine_by_ean sourcesW).res_eans ("e".toList) = some 0 ∧
    itWA ∈ gget (combine_by_ean sourcesW).groups 0 ∧
    (0 : ℕ) = 0 :=
  ⟨by decide, by decide, by decide,
   C3_disjoint_amended sourcesW (by decide) ("e".toList) ("e".toList) 0 0 itWA
     itWA (by decide) (by decide) (by decide) (by decide) rfl rfl rfl⟩

theorem SourcesWF_of_append_left (S1 S2 : Sources) (hwf : SourcesWF (S1 ++ S2)) :
    SourcesWF S1 := by
  obtain ⟨h1, h2⟩ := hwf
  constructor
  · rw [List.map_append] at h1
    exact h1.of_append_left
  · intro p hp
    exact h2 p (List.mem_append_left _ hp)

/-- C5: counterexample.  In the two-source run `sourcesBug` the alias
matcher appends `iX` to the fresh group seeded on the candidate `iY`
(`item.setdefault('bind', [item])` binds only `iY`): `iX` is a member of the
produced group yet holds no `'bind'` reference at all, so an appended member
does not reference the group it was appended to. -/
theorem C5_counterexample :
    iX ∈ gget (runMatch score100 0 100 sourcesBug).1.groups 0 ∧
    (0 : ℕ) ∈ (runMatch score100 0 100 sourcesBug).2 ∧
    dlookup (runMatch score100 0 100 sourcesBug).1.binds (itemKey iX) = none := by
  decide

/-- C5 amended: the back-reference guarantee holds for the exact matcher and
only there.  After the exact matcher has processed any source prefix, every
member's `'bind'` is the group containing it; an alias append never touches
the appended member's `'bind'` entry (only the candidate's, via
`setdefault`); and every `'bind'` recorded by the full run does point at a
group containing its item. -/
theorem C5_bind_amended (score : Str → Str → ℕ) (bt aT thresh : ℕ)
    (S1 S2 S : Sources) (rbi : List (Str × List Item)) (sour : Str)
    (st : CState) (res_arr : List ℕ) (ni : Item)
    (hwf1 : SourcesWF (S1 ++ S2)) (hwf : SourcesWF S)
    (hnis : ni.source_name = sour) :
    (∀ g it, it ∈ gget (combine_by_ean S1).groups g →
      dlookup (combine_by_ean S1).binds (itemKey it) = some g) ∧
    (dlookup (aliasStep score thresh rbi sour (st, res_arr) ni).1.binds
        (itemKey ni) = dlookup st.binds (itemKey ni)) ∧
    Coherent (runMatch score bt aT S).1 := by
  refine ⟨?_, ?_, ?_⟩
  · have hwfS1 := SourcesWF_of_append_left S1 S2 hwf1
    exact phase1_member_bind S1 _ hwfS1 (combine_by_ean_inv S1 hwfS1).2
  · unfold aliasStep
    dsimp only
    cases hb : dlookup st.binds (itemKey ni) with
    | some g => exact hb
    | none =>
      dsimp only
      cases hext : extractOne (fun a => score ni.aliasStr a)
          ((eligible st rbi sour ni).map Item.aliasStr) with
      | none => exact hb
      | some pr =>
        obtain ⟨msa, sc⟩ := pr
        dsimp only
        by_cases hth : thresh ≤ sc
        case neg =>
          rw [if_neg hth]
          exact hb
        case pos =>
        rw [if_pos hth]
        cases hfind : (eligible st rbi sour ni).find?
            (fun it => decide (it.aliasStr = msa)) with
        | none => exact hb
        | some item =>
          have hitem_mem : item ∈ eligible st rbi sour ni :=
            List.mem_of_find?_eq_some hfind
          have hsrc_ne : item.source_name ≠ sour :=
            not_bound_yet_src st sour item
              (eligible_spec st rbi sour ni item hitem_mem).2.1
          have hkey_ne : itemKey ni ≠ itemKey item := by
            intro h
            have h2 : ni.source_name = item.source_name := congrArg Prod.fst h
            exact hsrc_ne (by rw [← h2, hnis])
          cases hbitem : dlookup st.binds (itemKey item) with
          | some g =>
            simp only [hbitem]
            exact hb
          | none =>
            simp only [hbitem]
            rw [dlookup_dictInsert_ne _ _ _ _ hkey_ne]
            exact hb
  · have h1 := combine_by_ean_inv S hwf
    have h2 := phase1_aliasInv S (combine_by_ean S) hwf h1.2
    have h3 := combine_items_by_alias_inv S score aT
      (group_items_by_similar_brands score S bt) (combine_by_ean S) hwf
      (rbi_wf score S bt) h2
    exact h3.2.1

theorem C5_witness :
    SourcesWF (sourcesW ++ []) ∧
    itWA.source_name = "a".toList ∧
    dlookup (aliasStep (fun _ _ => 0) 90 [] ("a".toList) (CState.init, [])
      itWA).1.binds (itemKey itWA) = dlookup CState.init.binds (itemKey itWA) :=
  ⟨by decide, by decide,
   (C5_bind_amended (fun _ _ => 0) 95 90 90 sourcesW [] sourcesW [] ("a".toList)
      CState.init [] itWA (by decide) (by decide) (by decide)).2.1⟩

/-- C9: counterexample to the threshold-0 full-merge direction.  In the
single-source run `sourcesC9` the brand clusterer puts two distinct items
with equal weight keys into one bucket, yet at alias threshold 0 (and brand
threshold 0) the run produces no group at all: candidates from the new
item's own source are excluded by `not_bound_yet`, so a same-source bucket is
never merged. -/
theorem C9_counterexample :
    (∃ b ∈ group_items_by_similar_brands score100 sourcesC9 0,
     ∃ i ∈ b.2, ∃ j ∈ b.2, i ≠ j ∧ i.wm = j.wm) ∧
    (runMatch score100 0 0 sourcesC9).1.groups = [] ∧
    (runMatch score100 0 0 sourcesC9).2 = [] := by
  decide

/-- C9 amended: per item, for a scorer bounded by 100 that is maximal only
on equal texts: at threshold 100 an unbound new item changes the group arena
only when some eligible candidate's alias text is byte-identical to the new
item's alias text, and at threshold 0 an unbound new item with a non-empty
eligible candidate pool is always appended to some group — but a bucket
whose candidates all come from the item's own source is never merged, so
"every same-brand and same-weight bucket is fully merged" fails. -/
theorem C9_threshold_amended (score : Str → Str → ℕ) (rbi : List (Str × List Item))
    (sour : Str) (st : CState) (res_arr : List ℕ) (ni : Item)
    (hbound : ∀ a b, score a b ≤ 100) (hdisc : ∀ a b, score a b = 100 → a = b)
    (hun : dlookup st.binds (itemKey ni) = none) (hcoh : Coherent st) :
    ((aliasStep score 100 rbi sour (st, res_arr) ni).1.groups ≠ st.groups →
      ∃ cand ∈ eligible st rbi sour ni, cand.aliasStr = ni.aliasStr) ∧
    (eligible st rbi sour ni ≠ [] →
      ∃ g, ni ∈ gget (aliasStep score 0 rbi sour (st, res_arr) ni).1.groups g) := by
  constructor
  · unfold aliasStep
    dsimp only
    simp only [hun]
    cases hex : extractOne (fun a => score ni.aliasStr a)
        ((eligible st rbi sour ni).map Item.aliasStr) with
    | none =>
      intro hch
      exact absurd rfl hch
    | some pr =>
      obtain ⟨msa, sc⟩ := pr
      obtain ⟨hmem, hsc⟩ := extractOne_spec _ _ _ _ hex
      by_cases hth : (100 : ℕ) ≤ sc
      · intro _
        have hsc2 : sc = score ni.aliasStr msa := hsc
        have h1 : sc ≤ 100 := by rw [hsc2]; exact hbound _ _
        have h4 : score ni.aliasStr msa = 100 := by rw [← hsc2]; omega
        have heqs : ni.aliasStr = msa := hdisc _ _ h4
        obtain ⟨cand, hcand, hca⟩ := List.mem_map.mp hmem
        exact ⟨cand, hcand, hca.trans heqs.symm⟩
      · dsimp only
        rw [if_neg hth]
        intro hch
        exact absurd rfl hch
  · intro hne
    unfold aliasStep
    dsimp only
    simp only [hun]
    cases hex : extractOne (fun a => score ni.aliasStr a)
        ((eligible st rbi sour ni).map Item.aliasStr) with
    | none =>
      rw [extractOne_eq_none] at hex
      have h0 : eligible st rbi sour ni = [] := by simpa using hex
      exact absurd h0 hne
    | some pr =>
      obtain ⟨msa, sc⟩ := pr
      dsimp only
      rw [if_pos (Nat.zero_le sc)]
      obtain ⟨hmem, _⟩ := extractOne_spec _ _ _ _ hex
      obtain ⟨cand, hcand, hca⟩ := List.mem_map.mp hmem
      cases hfind : (eligible st rbi sour ni).find?
          (fun it => decide (it.aliasStr = msa)) with
      | none =>
        rw [List.find?_eq_none] at hfind
        exact absurd (by simp [hca]) (hfind cand hcand)
      | some item =>
        cases hbitem : dlookup st.binds (itemKey item) with
        | some g =>
          simp only [hbitem]
          obtain ⟨itg, hitg, _⟩ := hcoh _ _ hbitem
          have hglt : g < st.groups.length := lt_of_mem_gget _ _ _ hitg
          refine ⟨g, ?_⟩
          show ni ∈ gget (st.groups.set g (gget st.groups g ++ [ni])) g
          rw [gget_set_self _ _ _ hglt]
          simp
        | none =>
          simp only [hbitem]
          refine ⟨st.groups.length, ?_⟩
          show ni ∈ gget (st.groups ++ [[item, ni]]) st.groups.length
          rw [gget_append_self]
          simp

theorem C9_witness :
    dlookup CState.init.binds (itemKey nk) = none ∧
    eligible CState.init rbiK ("a".toList) nk ≠ [] ∧
    (∃ g, nk ∈ gget (aliasStep score100 0 rbiK ("a".toList) (CState.init, [])
        nk).1.groups g) :=
  ⟨rfl, by decide,
   (C9_threshold_amended score100 rbiK ("a".toList) CState.init [] nk
      (fun a b => by unfold score100; split <;> omega)
      (fun a b h => by
        unfold score100 at h
        by_cases hab : a = b
        · exact hab
        · rw [if_neg hab] at h
          omega)
      rfl
      (fun k g h => by simp [CState.init, dlookup] at h)).2 (by decide)⟩
